import Mathlib

/-!
Verification of the hybrid retrieval pipeline of a RAG chatbot.

This file shallowly embeds the retrieval-relevant parts of the repository:
`rag/retriever.py` (merge / rank / truncate / cache), the keyword machinery of
`database/supabase_client.py` (`_extract_keywords`, `_strip_particles`,
`_expand_compound_keywords`, `_expand_synonyms`, `keyword_search`), the
constants of `config/settings.py`, and the citation-assembly block of
`api/main.py` (`_is_excluded_video`, `response_generator`).

Modelling conventions:
- Python floats (similarity scores) are modelled as exact rationals `ℚ`;
  rationals are constructed with `mkRat` (exact division), and `round(x, 2)`
  is modelled as exact round-half-even on rationals.
- `time.time()` values are modelled as an integer clock `ℤ`; the code only
  compares differences of timestamps against the TTL.
- Python strings are Lean `String`s; `len`, slicing and `in` work on code
  points, matching Python semantics.  `str.lower` is modelled per-character
  (`Char.toLower`), which agrees with Python on the ASCII/Korean data the
  program handles.
- Python dicts used as ordered maps are association lists that keep
  insertion order (update in place, append new keys), matching the
  iteration-order semantics of `dict`.
- The synonym dictionary (`config/medical_synonyms.py`, not part of the
  embedded sources) is an arbitrary parameter `getSynonyms : String → List String`.
-/

namespace RagSpec

/-! ### Generic list helpers: association-list lookup and the stable
descending sort used to model Python `sorted(..., reverse=True)` /
`list.sort(..., reverse=True)` (both are stable). -/

/-- Lookup in an association list: first pair whose key matches. -/
def alookup {κ β : Type} [DecidableEq κ] (k : κ) : List (κ × β) → Option β
  | [] => none
  | p :: ps => if p.1 = k then some p.2 else alookup k ps

/-- Stable insertion for a descending sort by key `f`: the new element is
placed before the first element whose key is ≤ its own, hence after all
strictly greater keys and before equal keys that originally came later. -/
def insertDescBy {α β : Type} [LinearOrder β] (f : α → β) (a : α) : List α → List α
  | [] => [a]
  | x :: xs => if f x ≤ f a then a :: x :: xs else x :: insertDescBy f a xs

/-- Stable sort, descending by key `f`; models Python stable sorting with
`key=f, reverse=True`. -/
def sortDescBy {α β : Type} [LinearOrder β] (f : α → β) : List α → List α
  | [] => []
  | x :: xs => insertDescBy f x (sortDescBy f xs)

theorem insertDescBy_perm {α β : Type} [LinearOrder β] (f : α → β) (a : α) :
    ∀ l : List α, List.Perm (insertDescBy f a l) (a :: l) := by
  intro l
  induction l with
  | nil => simp [insertDescBy]
  | cons x xs ih =>
      by_cases h : f x ≤ f a
      · simp [insertDescBy, h]
      · simp only [insertDescBy, if_neg h]
        exact (List.Perm.cons x ih).trans (List.Perm.swap a x xs)

theorem sortDescBy_perm {α β : Type} [LinearOrder β] (f : α → β) :
    ∀ l : List α, List.Perm (sortDescBy f l) l := by
  intro l
  induction l with
  | nil => simp [sortDescBy]
  | cons x xs ih =>
      exact (insertDescBy_perm f x (sortDescBy f xs)).trans (List.Perm.cons x ih)

theorem mem_sortDescBy {α β : Type} [LinearOrder β] {f : α → β} {l : List α} {a : α} :
    a ∈ sortDescBy f l ↔ a ∈ l :=
  (sortDescBy_perm f l).mem_iff

theorem length_sortDescBy {α β : Type} [LinearOrder β] (f : α → β) (l : List α) :
    (sortDescBy f l).length = l.length :=
  (sortDescBy_perm f l).length_eq

theorem insertDescBy_pairwise {α β : Type} [LinearOrder β] (f : α → β) (a : α)
    (l : List α) (h : l.Pairwise (fun x y => f y ≤ f x)) :
    (insertDescBy f a l).Pairwise (fun x y => f y ≤ f x) := by
  induction l with
  | nil => simp [insertDescBy]
  | cons x xs ih =>
      rcases List.pairwise_cons.mp h with ⟨hx, hxs⟩
      by_cases hc : f x ≤ f a
      · rw [insertDescBy, if_pos hc]
        refine List.pairwise_cons.mpr ⟨?_, h⟩
        intro y hy
        rcases List.mem_cons.mp hy with rfl | hy
        · exact hc
        · exact le_trans (hx _ hy) hc
      · rw [insertDescBy, if_neg hc]
        refine List.pairwise_cons.mpr ⟨?_, ih hxs⟩
        intro y hy
        rcases List.mem_cons.mp ((insertDescBy_perm f a xs).mem_iff.mp hy) with rfl | hy
        · exact le_of_not_le hc
        · exact hx _ hy

theorem sortDescBy_pairwise {α β : Type} [LinearOrder β] (f : α → β) (l : List α) :
    (sortDescBy f l).Pairwise (fun x y => f y ≤ f x) := by
  induction l with
  | nil => simp [sortDescBy]
  | cons x xs ih => exact insertDescBy_pairwise f x _ ih

/-- Decomposition of the stable insert: it skips the strictly-greater keys
and drops the element in front of the rest. -/
theorem insertDescBy_eq_takeWhile {α β : Type} [LinearOrder β] (f : α → β) (a : α) :
    ∀ l : List α, insertDescBy f a l =
      l.takeWhile (fun x => decide (f a < f x)) ++
        a :: l.dropWhile (fun x => decide (f a < f x)) := by
  intro l
  induction l with
  | nil => simp [insertDescBy]
  | cons x xs ih =>
      by_cases h : f x ≤ f a
      · simp [insertDescBy, h, List.takeWhile_cons, List.dropWhile_cons, not_lt_of_le h]
      · have h' : f a < f x := lt_of_not_le h
        simp [insertDescBy, h, List.takeWhile_cons, List.dropWhile_cons, h', ih]

/-- Stability of the insert, phrased through filtering one key class. -/
theorem filter_insertDescBy {α β : Type} [LinearOrder β] (f : α → β) (a : α)
    (l : List α) (s : β) :
    (insertDescBy f a l).filter (fun x => decide (f x = s)) =
      (if f a = s then [a] else []) ++ l.filter (fun x => decide (f x = s)) := by
  rw [insertDescBy_eq_takeWhile]
  rw [List.filter_append, List.filter_cons]
  have hl : l.filter (fun x => decide (f x = s)) =
      (l.takeWhile (fun x => decide (f a < f x))).filter (fun x => decide (f x = s)) ++
        (l.dropWhile (fun x => decide (f a < f x))).filter (fun x => decide (f x = s)) := by
    rw [← List.filter_append]
    rw [List.takeWhile_append_dropWhile]
  by_cases hs : f a = s
  · have htw : (l.takeWhile (fun x => decide (f a < f x))).filter
        (fun x => decide (f x = s)) = [] := by
      rw [List.filter_eq_nil_iff]
      intro x hx
      have hlt : f a < f x := by
        have := List.mem_takeWhile_imp hx
        simpa using this
      simp only [decide_eq_true_eq]
      intro hxs
      exact absurd (hxs ▸ hlt) (by simp [hs])
    rw [htw, if_pos (by simp [hs]), if_pos hs, hl, htw]
    simp
  · rw [if_neg (by simp [hs]), if_neg hs, hl]
    simp

/-- Stability of the sort: each key class is kept in its input order. -/
theorem filter_sortDescBy {α β : Type} [LinearOrder β] (f : α → β) (l : List α) (s : β) :
    (sortDescBy f l).filter (fun x => decide (f x = s)) =
      l.filter (fun x => decide (f x = s)) := by
  induction l with
  | nil => simp [sortDescBy]
  | cons x xs ih =>
      rw [sortDescBy, filter_insertDescBy, ih, List.filter_cons]
      by_cases hs : f x = s <;> simp [hs]

/-! ### Configuration constants (`config/settings.py`) -/

/-- `SIMILARITY_THRESHOLD = 0.40` -/
def SIMILARITY_THRESHOLD : ℚ := mkRat 40 100

/-- `KEYWORD_SIMILARITY_FLOOR = 0.3` -/
def KEYWORD_SIMILARITY_FLOOR : ℚ := mkRat 3 10

/-- `MAX_CONTEXT_CHARS = 6000` -/
def MAX_CONTEXT_CHARS : ℕ := 6000

/-- `MAX_CONTEXT_DOCS = 5` -/
def MAX_CONTEXT_DOCS : ℕ := 5

/-- `RESULT_CACHE_SIZE = 128` -/
def RESULT_CACHE_SIZE : ℕ := 128

/-- `RESULT_CACHE_TTL_SECONDS = 300` -/
def RESULT_CACHE_TTL_SECONDS : ℤ := 300

/-! ### Data model -/

/-- Metadata mapping of a stored document, as used by the citation logic:
`metadata.get('source', '')` and `metadata.get('title', '')`.  A missing key
is the empty string.  An unparsable / empty metadata value is represented as
`Option.none` at the use sites (`_parse_meta` returning `{}`). -/
structure Meta where
  source : String
  title : String
deriving DecidableEq

/-- A retrieved document row: optional store id (`bigserial` integer for
`documents`, `uuid` string for `hospital_faqs`), text content, similarity
score, metadata.  `doc.get('similarity', 0)` is modelled by making the
score a total field whose value is `0` when the row carried none. -/
structure Doc where
  id : Option (ℤ ⊕ String)
  content : String
  similarity : ℚ
  metadata : Option Meta
deriving DecidableEq

/-- Identifier used for merging, from `retriever.py` line 85:
`doc_id = doc.get('id') or hash(doc.get('content', ''))`.
A missing id — and, per Python truthiness, the integer id `0` and the empty
string id — falls back to `hash(content)`; the Python `hash` builtin is an
arbitrary parameter `pyHash`. -/
def docKey (pyHash : String → ℤ) (d : Doc) : ℤ ⊕ String :=
  match d.id with
  | some (Sum.inl n) => if n = 0 then Sum.inl (pyHash d.content) else Sum.inl n
  | some (Sum.inr s) => if s = "" then Sum.inl (pyHash d.content) else Sum.inr s
  | none => Sum.inl (pyHash d.content)

/-! ### Merge with deduplication (`retriever.py` lines 82-91)

```
merged_docs = {}
for source_list in [faqs_vector, youtube_kw, docs_vector, general_kw]:
    for doc in source_list:
        doc_id = doc.get('id') or hash(doc.get('content', ''))
        if doc_id not in merged_docs:
            merged_docs[doc_id] = doc
        else:
            existing = merged_docs[doc_id]
            if doc.get('similarity', 0) > existing.get('similarity', 0):
                merged_docs[doc_id] = doc
```

The dict is modelled as an association list in insertion order: a new key is
appended at the end, an overriding update keeps the key position — exactly
the iteration-order semantics of a Python dict. -/

/-- One step of the merge loop body for a single `doc`. -/
def insertDoc {κ : Type} [DecidableEq κ] (key : Doc → κ) (m : List (κ × Doc))
    (d : Doc) : List (κ × Doc) :=
  match alookup (key d) m with
  | none => m ++ [(key d, d)]
  | some existing =>
      if existing.similarity < d.similarity then
        m.map (fun p => if p.1 = key d then (p.1, d) else p)
      else m

/-- The nested merge loop over the four branch result lists, in source
priority order. -/
def mergeDocs {κ : Type} [DecidableEq κ] (key : Doc → κ)
    (branches : List (List Doc)) : List (κ × Doc) :=
  branches.foldl (fun m l => l.foldl (insertDoc key) m) []

/-- Keys of an association list. -/
def mkeys {κ β : Type} (m : List (κ × β)) : List κ := m.map Prod.fst

theorem alookup_eq_none {κ β : Type} [DecidableEq κ] {k : κ} :
    ∀ {m : List (κ × β)}, alookup k m = none ↔ k ∉ mkeys m := by
  intro m
  induction m with
  | nil => simp [alookup, mkeys]
  | cons p ps ih =>
      by_cases h : p.1 = k
      · simp [alookup, h, mkeys]
      · simp [alookup, h, mkeys, Ne.symm h]
        simpa [mkeys] using ih

theorem alookup_append_right {κ β : Type} [DecidableEq κ] {k : κ}
    {m : List (κ × β)} (h : alookup k m = none) (l : List (κ × β)) :
    alookup k (m ++ l) = alookup k l := by
  induction m with
  | nil => simp
  | cons p ps ih =>
      by_cases hp : p.1 = k
      · simp [alookup, hp] at h
      · simp only [alookup, hp, if_neg hp, List.cons_append] at h ⊢
        exact ih h

theorem mkeys_insertDoc {κ : Type} [DecidableEq κ] (key : Doc → κ)
    (m : List (κ × Doc)) (d : Doc) :
    mkeys (insertDoc key m d) = mkeys m ∨
      mkeys (insertDoc key m d) = mkeys m ++ [key d] ∧ key d ∉ mkeys m := by
  unfold insertDoc
  cases hl : alookup (key d) m with
  | none =>
      right
      refine ⟨?_, alookup_eq_none.mp hl⟩
      simp [mkeys]
  | some e =>
      by_cases hs : e.similarity < d.similarity
      · left
        simp only [if_pos hs, mkeys, List.map_map]
        apply List.map_congr_left
        intro p _
        by_cases hp : p.1 = key d <;> simp [hp]
      · left
        simp [if_neg hs]

theorem nodup_mkeys_insertDoc {κ : Type} [DecidableEq κ] (key : Doc → κ)
    {m : List (κ × Doc)} (h : (mkeys m).Nodup) (d : Doc) :
    (mkeys (insertDoc key m d)).Nodup := by
  rcases mkeys_insertDoc key m d with heq | ⟨heq, hnew⟩
  · rw [heq]; exact h
  · rw [heq]
    simp only [List.nodup_append, List.nodup_cons]
    refine ⟨h, by simp, ?_⟩
    intro a ha
    simp only [List.mem_singleton]
    intro hk
    exact hnew (hk ▸ ha)

/-- After inserting `d`, its key maps to an entry at least as good as `d`
and at least as good as whatever was there before. -/
theorem alookup_insertDoc_self {κ : Type} [DecidableEq κ] (key : Doc → κ)
    (m : List (κ × Doc)) (d : Doc) :
    ∃ e, alookup (key d) (insertDoc key m d) = some e ∧
      d.similarity ≤ e.similarity ∧
      (∀ e0, alookup (key d) m = some e0 → e0.similarity ≤ e.similarity) := by
  unfold insertDoc
  cases hl : alookup (key d) m with
  | none =>
      refine ⟨d, ?_, le_refl _, by intro e0 he0; simp [hl] at he0⟩
      rw [alookup_append_right hl]
      simp [alookup]
  | some e =>
      dsimp only
      by_cases hs : e.similarity < d.similarity
      · rw [if_pos hs]
        refine ⟨d, ?_, le_refl _, ?_⟩
        · induction m with
          | nil => simp [alookup] at hl
          | cons p ps ih =>
              by_cases hp : p.1 = key d
              · simp [alookup, hp]
              · simp only [alookup, if_neg hp] at hl
                simpa [alookup, List.map_cons, hp] using ih hl
        · intro e0 he0
          cases he0
          exact le_of_lt hs
      · rw [if_neg hs]
        exact ⟨e, hl, le_of_not_lt hs, by intro e0 he0; cases he0; exact le_refl _⟩

/-- Updating the value at one key leaves every other key binding unchanged. -/
theorem alookup_map_update {κ : Type} [DecidableEq κ] (kd : κ) (d : Doc) (k : κ)
    (hk : k ≠ kd) :
    ∀ m : List (κ × Doc),
      alookup k (m.map (fun p => if p.1 = kd then (p.1, d) else p)) = alookup k m := by
  intro m
  induction m with
  | nil => rfl
  | cons p ps ih =>
      by_cases hp : p.1 = kd
      · have h1 : (kd : κ) ≠ k := Ne.symm hk
        simp [alookup, hp, h1, ih]
      · by_cases hpk : p.1 = k
        · have h2 : ¬ (k = kd) := fun h => hp (hpk.trans h)
          simp [alookup, hp, hpk, h2]
        · simp [alookup, hp, hpk, ih]

theorem alookup_append_single {κ : Type} [DecidableEq κ] {kd k : κ} {d : Doc}
    (hk : k ≠ kd) :
    ∀ m : List (κ × Doc), alookup k (m ++ [(kd, d)]) = alookup k m := by
  intro m
  induction m with
  | nil => simp [alookup, Ne.symm hk]
  | cons p ps ih => by_cases hp : p.1 = k <;> simp [alookup, hp, ih]

/-- Inserting a doc does not change the binding of any other key. -/
theorem alookup_insertDoc_other {κ : Type} [DecidableEq κ] (key : Doc → κ)
    (m : List (κ × Doc)) (d : Doc) (k : κ) (hk : k ≠ key d) :
    alookup k (insertDoc key m d) = alookup k m := by
  unfold insertDoc
  cases hl : alookup (key d) m with
  | none => exact alookup_append_single hk m
  | some e =>
      dsimp only
      by_cases hs : e.similarity < d.similarity
      · rw [if_pos hs]
        exact alookup_map_update (key d) d k hk m
      · rw [if_neg hs]

/-- Bindings only improve over a whole fold of insertions. -/
theorem foldl_insertDoc_mono {κ : Type} [DecidableEq κ] (key : Doc → κ) :
    ∀ (docs : List Doc) (m : List (κ × Doc)) (k : κ) (e : Doc),
      alookup k m = some e →
      ∃ e2, alookup k (docs.foldl (insertDoc key) m) = some e2 ∧
        e.similarity ≤ e2.similarity := by
  intro docs
  induction docs with
  | nil => exact fun m k e h => ⟨e, h, le_refl _⟩
  | cons d ds ih =>
      intro m k e h
      by_cases hk : k = key d
      · subst hk
        obtain ⟨e1, he1, hde1, hold⟩ := alookup_insertDoc_self key m d
        obtain ⟨e2, he2, h12⟩ := ih (insertDoc key m d) (key d) e1 he1
        exact ⟨e2, he2, le_trans (hold e h) h12⟩
      · have := alookup_insertDoc_other key m d k hk
        obtain ⟨e2, he2, h12⟩ := ih (insertDoc key m d) k e (this ▸ h)
        exact ⟨e2, he2, h12⟩

/-- Every processed document ends with a binding for its key whose score is
at least its own. -/
theorem foldl_insertDoc_retains {κ : Type} [DecidableEq κ] (key : Doc → κ) :
    ∀ (docs : List Doc) (m : List (κ × Doc)), ∀ d ∈ docs,
      ∃ e, alookup (key d) (docs.foldl (insertDoc key) m) = some e ∧
        d.similarity ≤ e.similarity := by
  intro docs
  induction docs with
  | nil => intro m d h; cases h
  | cons x xs ih =>
      intro m d hd
      rcases List.mem_cons.mp hd with rfl | hd
      · obtain ⟨e1, he1, hde1, _⟩ := alookup_insertDoc_self key m d
        obtain ⟨e2, he2, h12⟩ := foldl_insertDoc_mono key xs _ _ _ he1
        exact ⟨e2, he2, le_trans hde1 h12⟩
      · exact ih _ d hd

theorem foldl_insertDoc_nodup {κ : Type} [DecidableEq κ] (key : Doc → κ) :
    ∀ (docs : List Doc) (m : List (κ × Doc)), (mkeys m).Nodup →
      (mkeys (docs.foldl (insertDoc key) m)).Nodup := by
  intro docs
  induction docs with
  | nil => exact fun m h => h
  | cons d ds ih => exact fun m h => ih _ (nodup_mkeys_insertDoc key h d)

/-- The nested loop over branch lists is the flat loop over their
concatenation. -/
theorem mergeDocs_eq_foldl_join {κ : Type} [DecidableEq κ] (key : Doc → κ)
    (branches : List (List Doc)) :
    mergeDocs key branches = branches.flatten.foldl (insertDoc key) [] := by
  unfold mergeDocs
  generalize ([] : List (κ × Doc)) = m
  induction branches generalizing m with
  | nil => simp
  | cons l ls ih => simp [List.foldl_append, ih]

/-- Concrete documents for the spec scenario: the same store id `1` seen by
the curated vector branch with score 0.9 and by the general keyword branch
with score 0.6. -/
def docX : Doc := ⟨some (Sum.inl 1), "X", mkRat 9 10, none⟩

/-- The general-keyword copy of `docX`, scored 0.6. -/
def docXlow : Doc := ⟨some (Sum.inl 1), "X", mkRat 6 10, none⟩

/-- C1. Merge invariant of `retrieve` (`retriever.py` lines 82-91): merging
the four branch lists in the priority order curated-FAQ vector, video
keyword, primary vector, general keyword yields a Merged Result Set that
(1) binds each document identifier to exactly one `Doc`; (2) for every
candidate document of any branch, binds its identifier to an entry whose
similarity score is ≥ the candidate's score; (3) a later candidate never
replaces an existing entry of tie-or-lower score (the update step is a
no-op unless the incoming score is strictly higher); and (4) in the spec
scenario — document `X` with score 0.9 from the curated vector branch and
score 0.6 from the general keyword branch — the merged entry for `X` keeps
the 0.9-scored document. -/
theorem merge_invariant :
    (∀ (pyHash : String → ℤ) (faqsVector ytKw docsVector genKw : List Doc),
      (mkeys (mergeDocs (docKey pyHash)
        [faqsVector, ytKw, docsVector, genKw])).Nodup) ∧
    (∀ (pyHash : String → ℤ) (faqsVector ytKw docsVector genKw : List Doc),
      ∀ d ∈ faqsVector ++ ytKw ++ docsVector ++ genKw,
        ∃ e, alookup (docKey pyHash d)
            (mergeDocs (docKey pyHash) [faqsVector, ytKw, docsVector, genKw]) = some e ∧
          d.similarity ≤ e.similarity) ∧
    (∀ (pyHash : String → ℤ) (m : List ((ℤ ⊕ String) × Doc)) (d e : Doc),
      alookup (docKey pyHash d) m = some e → d.similarity ≤ e.similarity →
        insertDoc (docKey pyHash) m d = m) ∧
    (∀ pyHash : String → ℤ,
      mergeDocs (docKey pyHash) [[docX], [], [], [docXlow]] = [(Sum.inl 1, docX)]) := by
  refine ⟨?_, ?_, ?_, ?_⟩
  · intro pyHash faqsVector ytKw docsVector genKw
    rw [mergeDocs_eq_foldl_join]
    exact foldl_insertDoc_nodup _ _ _ (by simp [mkeys])
  · intro pyHash faqsVector ytKw docsVector genKw d hd
    rw [mergeDocs_eq_foldl_join]
    apply foldl_insertDoc_retains
    simpa using hd
  · intro pyHash m d e hl hle
    unfold insertDoc
    rw [hl]
    exact if_neg (not_lt_of_le hle)
  · intro pyHash
    rfl

/-- A trivial stand-in for the Python `hash` builtin, used to instantiate
universally quantified theorems at concrete inputs. -/
def hash0 : String → ℤ := fun _ => 0

/-- Witness for C1 at concrete inputs: the scenario branches themselves.
The retained entry for document `X` scores at least 0.6 (indeed 0.9), the
merged keys are duplicate-free, and re-inserting the 0.6 copy into the
merged map changes nothing. -/
theorem merge_invariant_witness :
    (mkeys (mergeDocs (docKey hash0) [[docX], [], [], [docXlow]])).Nodup ∧
    (∃ e, alookup (docKey hash0 docXlow)
        (mergeDocs (docKey hash0) [[docX], [], [], [docXlow]]) = some e ∧
      docXlow.similarity ≤ e.similarity) ∧
    insertDoc (docKey hash0) [(Sum.inl 1, docX)] docXlow = [(Sum.inl 1, docX)] := by
  refine ⟨merge_invariant.1 hash0 [docX] [] [] [docXlow],
    merge_invariant.2.1 hash0 [docX] [] [] [docXlow] docXlow (by decide),
    merge_invariant.2.2.1 hash0 [(Sum.inl 1, docX)] docXlow docX (by decide) (by decide)⟩

/-! ### Ranking and context truncation (`retriever.py` lines 93-106)

```
ranked = sorted(merged_docs.values(), key=lambda d: d.get('similarity', 0), reverse=True)
final_results = []
total_chars = 0
for doc in ranked:
    content = doc.get('content', '')
    if total_chars + len(content) > MAX_CONTEXT_CHARS:
        break
    if len(final_results) >= MAX_CONTEXT_DOCS:
        break
    final_results.append(doc)
    total_chars += len(content)
```
-/

/-- The truncation loop; `total` is `total_chars`, `count` is
`len(final_results)` so far, and the returned list is what still gets
appended (the loop breaks, so the output is a prefix of the ranked list). -/
def truncateLoop : List Doc → ℕ → ℕ → List Doc
  | [], _, _ => []
  | d :: ds, total, count =>
      if MAX_CONTEXT_CHARS < total + d.content.length then []
      else if MAX_CONTEXT_DOCS ≤ count then []
      else d :: truncateLoop ds (total + d.content.length) (count + 1)

/-- Merged values in dict order, re-ranked by similarity descending
(Python `sorted` is stable). -/
def rankDocs {κ : Type} (m : List (κ × Doc)) : List Doc :=
  sortDescBy Doc.similarity (m.map Prod.snd)

/-- The cache-miss body of `Retriever.retrieve`: merge the four branch
results in priority order, rank, truncate. -/
def retrieveCore {κ : Type} [DecidableEq κ] (key : Doc → κ)
    (faqsVector ytKw docsVector genKw : List Doc) : List Doc :=
  truncateLoop (rankDocs (mergeDocs key [faqsVector, ytKw, docsVector, genKw])) 0 0

theorem truncateLoop_leading :
    ∀ (l : List Doc) (total count : ℕ), truncateLoop l total count <+: l := by
  intro l
  induction l with
  | nil => intro total count; exact List.prefix_refl _
  | cons d ds ih =>
      intro total count
      rw [truncateLoop]
      by_cases h1 : MAX_CONTEXT_CHARS < total + d.content.length
      · simp [h1]
      · by_cases h2 : MAX_CONTEXT_DOCS ≤ count
        · simp [h1, h2]
        · rw [if_neg h1, if_neg h2]
          obtain ⟨t, ht⟩ := ih (total + d.content.length) (count + 1)
          exact ⟨t, by rw [List.cons_append, ht]⟩

theorem truncateLoop_chars :
    ∀ (l : List Doc) (total count : ℕ), total ≤ MAX_CONTEXT_CHARS →
      total + ((truncateLoop l total count).map (fun d => d.content.length)).sum ≤
        MAX_CONTEXT_CHARS := by
  intro l
  induction l with
  | nil => intro total count h; simpa [truncateLoop]
  | cons d ds ih =>
      intro total count h
      rw [truncateLoop]
      by_cases h1 : MAX_CONTEXT_CHARS < total + d.content.length
      · simpa [h1]
      · by_cases h2 : MAX_CONTEXT_DOCS ≤ count
        · simpa [h1, h2]
        · have := ih (total + d.content.length) (count + 1) (le_of_not_lt h1)
          simp only [h1, h2, if_false, if_neg h1, if_neg h2, List.map_cons, List.sum_cons]
          omega

theorem truncateLoop_count :
    ∀ (l : List Doc) (total count : ℕ), count ≤ MAX_CONTEXT_DOCS →
      (truncateLoop l total count).length + count ≤ MAX_CONTEXT_DOCS := by
  intro l
  induction l with
  | nil => intro total count h; simpa [truncateLoop]
  | cons d ds ih =>
      intro total count h
      rw [truncateLoop]
      by_cases h1 : MAX_CONTEXT_CHARS < total + d.content.length
      · simpa [h1]
      · by_cases h2 : MAX_CONTEXT_DOCS ≤ count
        · simpa [h1, h2]
        · have := ih (total + d.content.length) (count + 1) (by omega)
          simp only [if_neg h1, if_neg h2, List.length_cons]
          omega

/-- Six documents with distinct ids, contents of length 10 (60 characters in
total, far below the 6000-character budget) and descending integer scores:
a boundary input where the 6th document fits the character budget but must
be cut by the 5-document cap. -/
def sixDocs : List Doc :=
  [⟨some (Sum.inl 1), "0123456789", 6, none⟩,
   ⟨some (Sum.inl 2), "0123456789", 5, none⟩,
   ⟨some (Sum.inl 3), "0123456789", 4, none⟩,
   ⟨some (Sum.inl 4), "0123456789", 3, none⟩,
   ⟨some (Sum.inl 5), "0123456789", 2, none⟩,
   ⟨some (Sum.inl 6), "0123456789", 1, none⟩]

/-- C2. Output contract of `retrieve` (`retriever.py` lines 93-106): for any
branch results, the produced list is sorted by similarity descending, its
total content length is within `MAX_CONTEXT_CHARS = 6000`, its length is
within `MAX_CONTEXT_DOCS = 5`, equal-score documents keep their merged
order (stability), and on the boundary input `sixDocs` — whose 6th document
still fits the character budget — exactly the first 5 documents are
returned. -/
theorem retrieve_output_contract {κ : Type} [DecidableEq κ] (key : Doc → κ)
    (faqsVector ytKw docsVector genKw : List Doc) :
    (retrieveCore key faqsVector ytKw docsVector genKw).Pairwise
        (fun a b => b.similarity ≤ a.similarity) ∧
    ((retrieveCore key faqsVector ytKw docsVector genKw).map
        (fun d => d.content.length)).sum ≤ MAX_CONTEXT_CHARS ∧
    (retrieveCore key faqsVector ytKw docsVector genKw).length ≤ MAX_CONTEXT_DOCS ∧
    (∀ s : ℚ,
      (retrieveCore key faqsVector ytKw docsVector genKw).filter
          (fun d => decide (d.similarity = s)) <+:
        ((mergeDocs key [faqsVector, ytKw, docsVector, genKw]).map Prod.snd).filter
          (fun d => decide (d.similarity = s))) ∧
    retrieveCore (docKey hash0) [] [] sixDocs [] = sixDocs.take 5 := by
  refine ⟨?_, ?_, ?_, ?_, ?_⟩
  · exact (sortDescBy_pairwise Doc.similarity _).sublist
      ((truncateLoop_leading _ 0 0).sublist)
  · have := truncateLoop_chars
      (rankDocs (mergeDocs key [faqsVector, ytKw, docsVector, genKw])) 0 0
      (by norm_num [MAX_CONTEXT_CHARS])
    simpa [retrieveCore] using this
  · have := truncateLoop_count
      (rankDocs (mergeDocs key [faqsVector, ytKw, docsVector, genKw])) 0 0
      (by norm_num [MAX_CONTEXT_DOCS])
    simpa [retrieveCore] using this
  · intro s
    have hp := (truncateLoop_leading
      (rankDocs (mergeDocs key [faqsVector, ytKw, docsVector, genKw])) 0 0).filter
      (fun d => decide (d.similarity = s))
    rw [rankDocs, filter_sortDescBy] at hp
    exact hp
  · rfl

/-! ### Result cache (`retriever.py` lines 18-30, 37-41, 111)

```
def _get_cached(self, key):
    entry = self._cache.get(key)
    if entry and (time.time() - entry["timestamp"]) < RESULT_CACHE_TTL_SECONDS:
        return entry["results"]
    if entry:
        del self._cache[key]
    return None

def _set_cache(self, key, results):
    if len(self._cache) >= RESULT_CACHE_SIZE:
        oldest_key = min(self._cache, key=lambda k: self._cache[k]["timestamp"])
        del self._cache[oldest_key]
    self._cache[key] = {"results": results, "timestamp": time.time()}
```
-/

/-- A cache entry: result list plus insertion timestamp. -/
structure CacheEntry where
  results : List Doc
  timestamp : ℤ
deriving DecidableEq

/-- The result cache, keyed by raw query string, in insertion order. -/
abbrev Cache := List (String × CacheEntry)

/-- `_get_cached`: returns the cached results when the entry is younger than
the TTL; deletes a stale entry.  The second component is the cache after the
call (the Python method mutates `self._cache`). -/
def getCached (cache : Cache) (now : ℤ) (key : String) :
    Option (List Doc) × Cache :=
  match alookup key cache with
  | some entry =>
      if now - entry.timestamp < RESULT_CACHE_TTL_SECONDS then
        (some entry.results, cache)
      else (none, cache.eraseP (fun p => decide (p.1 = key)))
  | none => (none, cache)

/-- `min(self._cache, key=lambda k: self._cache[k]["timestamp"])`: the first
entry (in insertion order) with minimal timestamp; `none` on an empty cache
(where Python `min` would raise — unreachable behind the size guard). -/
def oldestEntry : Cache → Option (String × CacheEntry)
  | [] => none
  | p :: ps =>
      match oldestEntry ps with
      | none => some p
      | some q => if q.2.timestamp < p.2.timestamp then some q else some p

/-- `_set_cache`: evict the oldest entry when at capacity, then bind `key`
(update in place if present, else append — Python dict assignment). -/
def setCache (cache : Cache) (now : ℤ) (key : String) (results : List Doc) :
    Cache :=
  let c :=
    if RESULT_CACHE_SIZE ≤ cache.length then
      match oldestEntry cache with
      | some q => cache.eraseP (fun p => decide (p.1 = q.1))
      | none => cache
    else cache
  if (alookup key c).isSome then
    c.map (fun p => if p.1 = key then (key, ⟨results, now⟩) else p)
  else c ++ [(key, ⟨results, now⟩)]

/-- The four branch result lists a retrieval run would obtain from the
store, labelled as in `retriever.py` lines 44-61. -/
structure Branches where
  faqsVector : List Doc
  ytKw : List Doc
  docsVector : List Doc
  genKw : List Doc
deriving DecidableEq

/-- `Retriever.retrieve` over an explicit cache state and clock: returns the
result list, the cache after the call, and the number of searches issued
against the store (0 on a cache hit, 4 on a miss). -/
def retrieve {κ : Type} [DecidableEq κ] (key : Doc → κ) (cache : Cache)
    (now : ℤ) (query : String) (b : Branches) : List Doc × Cache × ℕ :=
  match getCached cache now query with
  | (some results, c) => (results, c, 0)
  | (none, c) =>
      let results := retrieveCore key b.faqsVector b.ytKw b.docsVector b.genKw
      (results, setCache c now query results, 4)

theorem mkeys_sublist {κ β : Type} {l₁ l₂ : List (κ × β)}
    (h : List.Sublist l₁ l₂) : List.Sublist (mkeys l₁) (mkeys l₂) :=
  h.map Prod.fst

theorem nodup_mkeys_getCached {cache : Cache} {now : ℤ} {key : String}
    (h : (mkeys cache).Nodup) : (mkeys (getCached cache now key).2).Nodup := by
  unfold getCached
  cases alookup key cache with
  | none => exact h
  | some entry =>
      by_cases hf : now - entry.timestamp < RESULT_CACHE_TTL_SECONDS
      · simpa [hf]
      · simp only [hf, if_false, if_neg hf]
        exact h.sublist (mkeys_sublist (List.eraseP_sublist _))

/-- Updating the value bound to one key does not change the key list. -/
theorem mkeys_map_set {κ : Type} [DecidableEq κ] (k : κ) (e : CacheEntry) :
    ∀ c : List (κ × CacheEntry),
      mkeys (c.map (fun p => if p.1 = k then (k, e) else p)) = mkeys c := by
  intro c
  induction c with
  | nil => rfl
  | cons p ps ih =>
      by_cases hp : p.1 = k <;> simp [mkeys, hp, ih] <;>
        simpa [mkeys] using ih

theorem alookup_map_set {κ : Type} [DecidableEq κ] (k : κ) (e : CacheEntry) :
    ∀ c : List (κ × CacheEntry), (alookup k c).isSome →
      alookup k (c.map (fun p => if p.1 = k then (k, e) else p)) = some e := by
  intro c
  induction c with
  | nil => intro h; simp [alookup] at h
  | cons p ps ih =>
      intro h
      by_cases hp : p.1 = k
      · simp [alookup, hp]
      · simp only [alookup, if_neg hp] at h
        simp [alookup, hp, ih h]

theorem nodup_mkeys_setCache {cache : Cache} {now : ℤ} {key : String}
    {results : List Doc} (h : (mkeys cache).Nodup) :
    (mkeys (setCache cache now key results)).Nodup := by
  unfold setCache
  set c :=
    if RESULT_CACHE_SIZE ≤ cache.length then
      match oldestEntry cache with
      | some q => cache.eraseP (fun p => decide (p.1 = q.1))
      | none => cache
    else cache with hc
  have hcn : (mkeys c).Nodup := by
    rw [hc]
    by_cases hl : RESULT_CACHE_SIZE ≤ cache.length
    · simp only [if_pos hl]
      cases oldestEntry cache with
      | none => exact h
      | some q => exact h.sublist (mkeys_sublist (List.eraseP_sublist _))
    · simpa [hl]
  by_cases hs : (alookup key c).isSome
  · rw [if_pos hs]
    rw [mkeys_map_set]
    exact hcn
  · rw [if_neg hs]
    have hnone : alookup key c = none := by
      cases hl : alookup key c
      · rfl
      · rw [hl] at hs; simp at hs
    have hkey : key ∉ mkeys c := alookup_eq_none.mp hnone
    simp only [mkeys, List.map_append]
    rw [List.nodup_append]
    refine ⟨hcn, by simp, ?_⟩
    intro a ha
    simp only [List.map_cons, List.map_nil, List.mem_singleton]
    intro hak
    exact hkey (hak ▸ ha)

/-- After `_set_cache`, the key is bound to the fresh entry. -/
theorem alookup_setCache_self (cache : Cache) (now : ℤ) (key : String)
    (results : List Doc) :
    alookup key (setCache cache now key results) =
      some ⟨results, now⟩ := by
  unfold setCache
  set c :=
    if RESULT_CACHE_SIZE ≤ cache.length then
      match oldestEntry cache with
      | some q => cache.eraseP (fun p => decide (p.1 = q.1))
      | none => cache
    else cache with hc
  by_cases hs : (alookup key c).isSome
  · rw [if_pos hs]
    exact alookup_map_set key _ c hs
  · rw [if_neg hs]
    have hnone : alookup key c = none := by
      cases hl : alookup key c
      · rfl
      · rw [hl] at hs; simp at hs
    rw [alookup_append_right hnone]
    simp [alookup]

/-- A successful `_get_cached` lookup comes from a bound entry that is
strictly younger than the TTL, and leaves the cache untouched. -/
theorem getCached_hit {c0 : Cache} {t : ℤ} {q : String} {r : List Doc}
    {c : Cache} (h : getCached c0 t q = (some r, c)) :
    ∃ e, alookup q c0 = some e ∧ t - e.timestamp < RESULT_CACHE_TTL_SECONDS ∧
      r = e.results ∧ c = c0 := by
  unfold getCached at h
  cases hl : alookup q c0 with
  | none => rw [hl] at h; simp at h
  | some entry =>
      rw [hl] at h
      dsimp only at h
      by_cases hf : t - entry.timestamp < RESULT_CACHE_TTL_SECONDS
      · rw [if_pos hf] at h
        simp only [Prod.mk.injEq, Option.some.injEq] at h
        exact ⟨entry, rfl, hf, h.1.symm, h.2.symm⟩
      · rw [if_neg hf] at h
        simp at h

/-- After any `retrieve` call, the query is bound in the resulting cache to
exactly the returned result list. -/
theorem retrieve_binds_query {κ : Type} [DecidableEq κ] (key : Doc → κ)
    (c0 : Cache) (t : ℤ) (q : String) (b : Branches) :
    ∃ e, alookup q (retrieve key c0 t q b).2.1 = some e ∧
      e.results = (retrieve key c0 t q b).1 := by
  unfold retrieve
  rcases hG : getCached c0 t q with ⟨o, c⟩
  cases o with
  | some r =>
      obtain ⟨e, he, _, hr, hc⟩ := getCached_hit hG
      exact ⟨e, by rw [hc]; exact he, hr.symm⟩
  | none =>
      refine ⟨⟨retrieveCore key b.faqsVector b.ytKw b.docsVector b.genKw, t⟩, ?_, rfl⟩
      exact alookup_setCache_self c t q _

/-- C3. Cache-hit idempotence of `retrieve` (`retriever.py` lines 18-24 and
37-41): after a first call on query `q` at time `t1`, a second call at time
`t2` finds `q` bound to an entry; whenever that entry's age is strictly
below `RESULT_CACHE_TTL_SECONDS = 300`, the second call returns exactly the
first call's result list, leaves the cache unchanged, and issues zero
searches against the store.  Moreover a cache lookup never returns an entry
whose age is ≥ the TTL: any hit comes from a bound entry of age < TTL. -/
theorem retrieve_cache_idempotent {κ : Type} [DecidableEq κ] (key : Doc → κ)
    (c0 : Cache) (t1 t2 : ℤ) (q : String) (b1 b2 : Branches) :
    (∀ e : CacheEntry,
      alookup q (retrieve key c0 t1 q b1).2.1 = some e →
      t2 - e.timestamp < RESULT_CACHE_TTL_SECONDS →
      retrieve key (retrieve key c0 t1 q b1).2.1 t2 q b2 =
        ((retrieve key c0 t1 q b1).1, (retrieve key c0 t1 q b1).2.1, 0)) ∧
    (∀ (c : Cache) (now : ℤ) (k : String) (r : List Doc),
      (getCached c now k).1 = some r →
      ∃ e, alookup k c = some e ∧ now - e.timestamp < RESULT_CACHE_TTL_SECONDS ∧
        r = e.results) := by
  constructor
  · intro e he hage
    obtain ⟨e0, he0, hr⟩ := retrieve_binds_query key c0 t1 q b1
    have hee : e = e0 := by
      rw [he] at he0
      exact Option.some.injEq _ _ ▸ he0
    have hG : getCached (retrieve key c0 t1 q b1).2.1 t2 q =
        (some e.results, (retrieve key c0 t1 q b1).2.1) := by
      unfold getCached
      rw [he]
      dsimp only
      rw [if_pos hage]
    conv_lhs => rw [retrieve, hG]
    rw [hee, hr]
  · intro c now k r h
    have h2 : getCached c now k = (some r, (getCached c now k).2) := by
      rw [← h]
    obtain ⟨e, he, hage, hr, _⟩ := getCached_hit h2
    exact ⟨e, he, hage, hr⟩

/-- Branch results that are all empty, for concrete instantiations. -/
def emptyBranches : Branches := ⟨[], [], [], []⟩

/-- Witness for C3: starting from the empty cache at time 0 with query
`"q"`, the second call at time 1 (entry age 1 < 300) returns the first
call's results, the unchanged cache, and zero store searches. -/
theorem retrieve_cache_idempotent_witness :
    retrieve (docKey hash0) (retrieve (docKey hash0) [] 0 "q" emptyBranches).2.1
        1 "q" emptyBranches =
      ((retrieve (docKey hash0) [] 0 "q" emptyBranches).1,
       (retrieve (docKey hash0) [] 0 "q" emptyBranches).2.1, 0) :=
  (retrieve_cache_idempotent (docKey hash0) [] 0 1 "q" emptyBranches
    emptyBranches).1 ⟨[], 0⟩ (by decide) (by decide)

theorem oldestEntry_of_ne_nil {c : Cache} (h : c ≠ []) :
    ∃ q, oldestEntry c = some q := by
  cases c with
  | nil => exact absurd rfl h
  | cons p ps =>
      rw [oldestEntry]
      cases oldestEntry ps with
      | none => exact ⟨p, rfl⟩
      | some q0 =>
          dsimp only
          by_cases hq : q0.2.timestamp < p.2.timestamp
          · exact ⟨q0, if_pos hq⟩
          · exact ⟨p, if_neg hq⟩

theorem oldestEntry_eq_none {c : Cache} (h : oldestEntry c = none) : c = [] := by
  cases c with
  | nil => rfl
  | cons y ys =>
      rw [oldestEntry] at h
      cases hoy : oldestEntry ys with
      | none => rw [hoy] at h; cases h
      | some q1 =>
          rw [hoy] at h
          dsimp only at h
          by_cases hq : q1.2.timestamp < y.2.timestamp
          · rw [if_pos hq] at h; cases h
          · rw [if_neg hq] at h; cases h

theorem oldestEntry_mem : ∀ {c : Cache} {q : String × CacheEntry},
    oldestEntry c = some q → q ∈ c := by
  intro c
  induction c with
  | nil => intro q h; cases h
  | cons p ps ih =>
      intro q h
      rw [oldestEntry] at h
      cases ho : oldestEntry ps with
      | none =>
          rw [ho] at h
          cases h
          exact List.mem_cons_self _ _
      | some q0 =>
          rw [ho] at h
          dsimp only at h
          by_cases hq : q0.2.timestamp < p.2.timestamp
          · rw [if_pos hq] at h
            cases h
            exact List.mem_cons_of_mem _ (ih ho)
          · rw [if_neg hq] at h
            cases h
            exact List.mem_cons_self _ _

/-- `min(..., key=timestamp)` picks an entry of globally minimal
timestamp. -/
theorem oldestEntry_min : ∀ {c : Cache} {q : String × CacheEntry},
    oldestEntry c = some q → ∀ p ∈ c, q.2.timestamp ≤ p.2.timestamp := by
  intro c
  induction c with
  | nil => intro q h; cases h
  | cons x xs ih =>
      intro q h p hp
      rw [oldestEntry] at h
      cases ho : oldestEntry xs with
      | none =>
          rw [ho] at h
          cases h
          have hxs := oldestEntry_eq_none ho
          subst hxs
          rcases List.mem_singleton.mp hp with rfl
          exact le_refl _
      | some q0 =>
          rw [ho] at h
          dsimp only at h
          by_cases hq : q0.2.timestamp < x.2.timestamp
          · rw [if_pos hq] at h
            cases h
            rcases List.mem_cons.mp hp with rfl | hp
            · exact le_of_lt hq
            · exact ih ho _ hp
          · rw [if_neg hq] at h
            cases h
            rcases List.mem_cons.mp hp with rfl | hp
            · exact le_refl _
            · exact le_trans (le_of_not_lt hq) (ih ho _ hp)

/-- C7. Cache capacity eviction (`retriever.py` lines 26-30): when the
cache holds exactly `RESULT_CACHE_SIZE = 128` entries and a result for a
query that is not currently cached is inserted, the new cache again holds
exactly 128 entries and equals the old cache with exactly one entry
removed — one of globally minimal (oldest) insertion timestamp — and the
new binding appended; moreover no insert ever pushes the cache above its
capacity. -/
theorem cache_eviction (c : Cache) (now : ℤ) (key : String)
    (results : List Doc) (hlen : c.length = RESULT_CACHE_SIZE)
    (hk : alookup key c = none) :
    (setCache c now key results).length = RESULT_CACHE_SIZE ∧
    (∃ ev ∈ c, (∀ p ∈ c, ev.2.timestamp ≤ p.2.timestamp) ∧
      setCache c now key results =
        c.eraseP (fun p => decide (p.1 = ev.1)) ++ [(key, ⟨results, now⟩)]) ∧
    (∀ (c2 : Cache) (now2 : ℤ) (k2 : String) (r2 : List Doc),
      c2.length ≤ RESULT_CACHE_SIZE →
      (setCache c2 now2 k2 r2).length ≤ RESULT_CACHE_SIZE) := by
  have hne : c ≠ [] := by
    intro h
    rw [h] at hlen
    simp [RESULT_CACHE_SIZE] at hlen
  obtain ⟨q, hq⟩ := oldestEntry_of_ne_nil hne
  have hle : RESULT_CACHE_SIZE ≤ c.length := le_of_eq hlen.symm
  have hqc : (fun p => decide (p.1 = q.1)) q = true := by simp
  have herase : (c.eraseP (fun p => decide (p.1 = q.1))).length + 1 = c.length :=
    List.length_eraseP_add_one (oldestEntry_mem hq) hqc
  have hnone : alookup key (c.eraseP (fun p => decide (p.1 = q.1))) = none := by
    apply alookup_eq_none.mpr
    intro hmem
    exact alookup_eq_none.mp hk
      ((mkeys_sublist (List.eraseP_sublist c)).mem hmem)
  have hform : setCache c now key results =
      c.eraseP (fun p => decide (p.1 = q.1)) ++ [(key, ⟨results, now⟩)] := by
    unfold setCache
    rw [if_pos hle, hq]
    dsimp only
    rw [if_neg (by rw [hnone]; simp)]
  refine ⟨?_, ⟨q, oldestEntry_mem hq, oldestEntry_min hq, hform⟩, ?_⟩
  · rw [hform, List.length_append]
    simp only [List.length_cons, List.length_nil]
    omega
  · intro c2 now2 k2 r2 hb
    unfold setCache
    by_cases hev : RESULT_CACHE_SIZE ≤ c2.length
    · have h2 : c2.length = RESULT_CACHE_SIZE := le_antisymm hb hev
      have hne2 : c2 ≠ [] := by
        intro h
        rw [h] at h2
        simp [RESULT_CACHE_SIZE] at h2
      obtain ⟨q2, hq2⟩ := oldestEntry_of_ne_nil hne2
      rw [if_pos hev, hq2]
      dsimp only
      have herase2 : (c2.eraseP (fun p => decide (p.1 = q2.1))).length + 1 =
          c2.length :=
        List.length_eraseP_add_one (oldestEntry_mem hq2) (by simp)
      by_cases hs : (alookup k2 (c2.eraseP (fun p => decide (p.1 = q2.1)))).isSome
      · rw [if_pos hs, List.length_map]
        omega
      · rw [if_neg hs, List.length_append]
        simp only [List.length_cons, List.length_nil]
        omega
    · rw [if_neg hev]
      by_cases hs : (alookup k2 c2).isSome
      · rw [if_pos hs, List.length_map]
        omega
      · rw [if_neg hs, List.length_append]
        simp only [List.length_cons, List.length_nil]
        omega

/-- A full cache: 128 entries with distinct single-character keys and
increasing timestamps. -/
def bigCache : Cache :=
  (List.range RESULT_CACHE_SIZE).map
    (fun i => (String.mk [Char.ofNat (i + 300)], ⟨[], (i : ℤ)⟩))

set_option maxRecDepth 10000 in
/-- Witness for C7: inserting a fresh query into the full `bigCache` keeps
it at exactly 128 entries. -/
theorem cache_eviction_witness :
    (setCache bigCache 999 "zz" []).length = RESULT_CACHE_SIZE :=
  (cache_eviction bigCache 999 "zz" [] (by decide) (by decide)).1

/-! ### Fail-soft fan-out (`retriever.py` lines 63-75)

```
for future in as_completed(futures):
    label = futures[future]
    try:
        search_results[label] = future.result(timeout=8)
    except Exception as e:
        print(f"[Retriever] {label} search failed: {e}")
        search_results[label] = []
```

A branch either delivers a result list or raises a `StoreError`; the
`except` arm replaces a failed branch by the empty list, so `retrieve`
itself never propagates an exception (in this embedding: it is a total
function into `List Doc`). -/

/-- A failed retrieval branch, carrying its diagnostic. -/
structure StoreError where
  message : String
deriving DecidableEq

/-- The `try/except` arm around `future.result`. -/
def resolveBranch : Except StoreError (List Doc) → List Doc
  | .ok l => l
  | .error _ => []

/-- The four branch outcomes of one fan-out, each either a result list or a
`StoreError`. -/
structure BranchOutcomes where
  faqsVector : Except StoreError (List Doc)
  ytKw : Except StoreError (List Doc)
  docsVector : Except StoreError (List Doc)
  genKw : Except StoreError (List Doc)

/-- The cache-miss body of `retrieve` applied to fallible branches: each
branch is recovered by the `except` arm, then merged / ranked / truncated. -/
def retrieveFanout {κ : Type} [DecidableEq κ] (key : Doc → κ)
    (o : BranchOutcomes) : List Doc :=
  retrieveCore key (resolveBranch o.faqsVector) (resolveBranch o.ytKw)
    (resolveBranch o.docsVector) (resolveBranch o.genKw)

/-- C4. Fail-soft fan-out of `retrieve` (`retriever.py` lines 63-75): a
branch that raises a `StoreError` contributes exactly the empty result
list — replacing any single failed branch by a successful empty one changes
nothing, and the other branches are untouched; no exception reaches the
caller (`retrieveFanout` is total); and when all four branches fail the
result is the empty list rather than an error. -/
theorem retrieve_fail_soft {κ : Type} [DecidableEq κ] (key : Doc → κ)
    (o : BranchOutcomes) (err1 err2 err3 err4 : StoreError) :
    retrieveFanout key { o with faqsVector := .error err1 } =
      retrieveFanout key { o with faqsVector := .ok [] } ∧
    retrieveFanout key { o with ytKw := .error err2 } =
      retrieveFanout key { o with ytKw := .ok [] } ∧
    retrieveFanout key { o with docsVector := .error err3 } =
      retrieveFanout key { o with docsVector := .ok [] } ∧
    retrieveFanout key { o with genKw := .error err4 } =
      retrieveFanout key { o with genKw := .ok [] } ∧
    (∀ l1 l2 l3 l4,
      retrieveFanout key ⟨.ok l1, .ok l2, .ok l3, .ok l4⟩ =
        retrieveCore key l1 l2 l3 l4) ∧
    retrieveFanout key ⟨.error err1, .error err2, .error err3, .error err4⟩ = [] :=
  ⟨rfl, rfl, rfl, rfl, fun _ _ _ _ => rfl, rfl⟩

/-! ### Keyword extraction (`supabase_client.py` lines 139-198)

```
tokens = query_text.replace("?", "").replace("!", "").replace(".", "").split()
keywords = []
for w in tokens:
    if len(w) < 2 or w in SupabaseManager._STOPWORDS:
        continue
    stripped = SupabaseManager._strip_particles(w)
    if len(stripped) >= 2 and stripped not in SupabaseManager._STOPWORDS:
        keywords.append(stripped)
    elif len(w) >= 2:
        keywords.append(w)
seen = set(); unique = []
for kw in keywords:
    if kw not in seen:
        seen.add(kw); unique.append(kw)
if not unique and tokens:
    unique = sorted(tokens, key=len, reverse=True)[:3]
return unique
```
-/

/-- `_STOPWORDS`, transcribed verbatim (as a list; order is irrelevant for
membership). -/
def STOPWORDS : List String :=
  ["은", "는", "이", "가", "을", "를", "의", "에", "에서", "으로", "로",
   "와", "과", "도", "만", "까지", "부터", "에게", "한테", "께",
   "하는", "하고", "해서", "하면", "합니다", "입니다", "있는", "없는",
   "어떤", "무엇", "어떻게", "왜", "좀", "것", "수", "때", "거",
   "알려줘", "알려주세요", "뭐야", "뭔가요", "인가요", "건가요",
   "대해", "대해서", "관해", "관해서", "뭐예요", "무엇인가요",
   "어떻", "그런", "이런", "저런", "있나요", "없나요", "해주세요",
   "싶어", "싶은", "싶다", "싶어요", "싶습니다", "소개", "설명", "궁금", "정보"]

/-- `_PARTICLES`, transcribed verbatim; the order matters (first match
wins). -/
def PARTICLES : List String :=
  ["에서는", "에서도", "에서의", "으로는", "으로도", "에서",
   "에게는", "에게도", "에게", "한테는", "한테도", "한테",
   "으로", "로는", "로도",
   "이란", "이라", "이든", "이나", "이고", "이에",
   "에는", "에도", "에의",
   "은요", "는요", "이요",
   "과는", "와는",
   "까지", "부터", "마저", "조차", "밖에",
   "하고", "해서", "해요", "하면", "할까",
   "은", "는", "이", "가", "을", "를", "의", "에", "로",
   "와", "과", "도", "만", "요"]

/-- Python `str.split()` (no separator): split on whitespace runs,
discarding empty tokens.  `acc` holds the current token reversed. -/
def splitWsAux : List Char → List Char → List String
  | [], acc => if acc = [] then [] else [String.mk acc.reverse]
  | c :: cs, acc =>
      if c.isWhitespace then
        if acc = [] then splitWsAux cs []
        else String.mk acc.reverse :: splitWsAux cs []
      else splitWsAux cs (c :: acc)

/-- Python `s.split()`. -/
def pySplit (s : String) : List String := splitWsAux s.toList []

/-- `query_text.replace("?", "").replace("!", "").replace(".", "")`:
replacing a single-character pattern by the empty string deletes those
characters. -/
def stripPunct (s : String) : String :=
  String.mk (s.toList.filter (fun c => !(c == '?' || c == '!' || c == '.')))

/-- The token list of a query. -/
def queryTokens (q : String) : List String := pySplit (stripPunct q)

/-- Python `w.endswith(p)` on code points. -/
def strEndsWith (w p : String) : Bool := p.toList.isSuffixOf w.toList

/-- `_strip_particles`: the first listed particle that is a proper suffix
leaving a remainder of ≥ the particle length plus... precisely Python
`word.endswith(p) and len(word) > len(p) + 1`, then `word[:-len(p)]`. -/
def stripParticles (w : String) : String :=
  match PARTICLES.find? (fun p => strEndsWith w p && decide (p.length + 1 < w.length)) with
  | some p => String.mk (w.toList.take (w.length - p.length))
  | none => w

/-- The loop body of `_extract_keywords` for one token: `none` when the
token is dropped, otherwise the keyword it contributes. -/
def tokenKeyword (w : String) : Option String :=
  if w.length < 2 ∨ w ∈ STOPWORDS then none
  else
    let stripped := stripParticles w
    if 2 ≤ stripped.length ∧ stripped ∉ STOPWORDS then some stripped
    else if 2 ≤ w.length then some w
    else none

/-- The `keywords` list accumulated by the token loop. -/
def keywordsOf (tokens : List String) : List String := tokens.filterMap tokenKeyword

/-- First-occurrence deduplication, as done with the `seen` set and the
`unique` list. -/
def dedupKeepAux : List String → List String → List String
  | [], _ => []
  | x :: xs, seen =>
      if x ∈ seen then dedupKeepAux xs seen
      else x :: dedupKeepAux xs (x :: seen)

/-- The dedup loop started with an empty `seen` set. -/
def dedupKeep (l : List String) : List String := dedupKeepAux l []

/-- `_extract_keywords`. -/
def extractKeywords (q : String) : List String :=
  let tokens := queryTokens q
  let unique := dedupKeep (keywordsOf tokens)
  if unique = [] ∧ tokens ≠ [] then (sortDescBy String.length tokens).take 3
  else unique

theorem mem_dedupKeepAux : ∀ (l seen : List String) (a : String),
    a ∈ dedupKeepAux l seen → a ∈ l := by
  intro l
  induction l with
  | nil => intro seen a h; simp [dedupKeepAux] at h
  | cons x xs ih =>
      intro seen a h
      rw [dedupKeepAux] at h
      by_cases hx : x ∈ seen
      · rw [if_pos hx] at h
        exact List.mem_cons_of_mem _ (ih _ a h)
      · rw [if_neg hx] at h
        rcases List.mem_cons.mp h with rfl | h
        · exact List.mem_cons_self _ _
        · exact List.mem_cons_of_mem _ (ih _ a h)

theorem mem_dedupKeep (l : List String) (a : String) (h : a ∈ dedupKeep l) :
    a ∈ l :=
  mem_dedupKeepAux l [] a h

theorem dedupKeepAux_avoids : ∀ (l seen : List String) (a : String),
    a ∈ dedupKeepAux l seen → a ∉ seen := by
  intro l
  induction l with
  | nil => intro seen a h; simp [dedupKeepAux] at h
  | cons x xs ih =>
      intro seen a h
      rw [dedupKeepAux] at h
      by_cases hx : x ∈ seen
      · rw [if_pos hx] at h
        exact ih _ a h
      · rw [if_neg hx] at h
        rcases List.mem_cons.mp h with rfl | h
        · exact hx
        · intro hs
          exact ih _ a h (List.mem_cons_of_mem _ hs)

theorem dedupKeepAux_nodup : ∀ l seen : List String, (dedupKeepAux l seen).Nodup := by
  intro l
  induction l with
  | nil => intro seen; simp [dedupKeepAux]
  | cons x xs ih =>
      intro seen
      rw [dedupKeepAux]
      by_cases hx : x ∈ seen
      · rw [if_pos hx]
        exact ih seen
      · rw [if_neg hx]
        refine List.nodup_cons.mpr ⟨?_, ih _⟩
        intro hmem
        exact dedupKeepAux_avoids _ _ _ hmem (List.mem_cons_self _ _)

theorem dedupKeep_nodup (l : List String) : (dedupKeep l).Nodup :=
  dedupKeepAux_nodup l []

theorem dedupKeep_ne_nil {l : List String} (h : l ≠ []) : dedupKeep l ≠ [] := by
  cases l with
  | nil => exact absurd rfl h
  | cons x xs =>
      rw [dedupKeep, dedupKeepAux]
      rw [if_neg (by simp)]
      simp

/-- Every keyword emitted by the token loop has at least 2 characters. -/
theorem tokenKeyword_length {w kw : String} (h : tokenKeyword w = some kw) :
    2 ≤ kw.length := by
  unfold tokenKeyword at h
  by_cases h1 : w.length < 2 ∨ w ∈ STOPWORDS
  · rw [if_pos h1] at h
    cases h
  · rw [if_neg h1] at h
    by_cases h2 : 2 ≤ (stripParticles w).length ∧ stripParticles w ∉ STOPWORDS
    · rw [if_pos h2] at h
      cases h
      exact h2.1
    · rw [if_neg h2] at h
      by_cases h3 : 2 ≤ w.length
      · rw [if_pos h3] at h
        cases h
        exact h3
      · rw [if_neg h3] at h
        cases h

/-- C5 counterexample. The claim states that for every non-empty query
string the extraction is non-empty with unique keywords of length ≥ 2.
The non-empty query `"?"` yields no tokens and the empty keyword list, and
the non-empty query `"a b"` triggers the fallback, which returns the
original 1-character tokens — shorter than the claimed minimum length. -/
theorem extractKeywords_claim_counterexample :
    ("?" : String) ≠ "" ∧ extractKeywords "?" = [] ∧
    ("a b" : String) ≠ "" ∧ extractKeywords "a b" = ["a", "b"] ∧
    ("a" : String).length < 2 := by decide

/-- C5 (amended). When at least one token survives stopword/particle
filtering, `extractKeywords` returns a non-empty ordered sequence of unique
keywords each of length ≥ 2.  When no keyword survives but whitespace
tokens existed, the fallback returns the up-to-3 longest original tokens —
non-empty, but possibly shorter than 2 characters and possibly repeated.
When the query has no tokens at all, the result is empty. -/
theorem extractKeywords_amended (q : String) :
    (keywordsOf (queryTokens q) ≠ [] →
      extractKeywords q ≠ [] ∧ (extractKeywords q).Nodup ∧
        ∀ w ∈ extractKeywords q, 2 ≤ w.length) ∧
    (keywordsOf (queryTokens q) = [] → queryTokens q ≠ [] →
      extractKeywords q ≠ [] ∧
        extractKeywords q = (sortDescBy String.length (queryTokens q)).take 3) ∧
    (queryTokens q = [] → extractKeywords q = []) := by
  refine ⟨?_, ?_, ?_⟩
  · intro hkw
    have hdd : dedupKeep (keywordsOf (queryTokens q)) ≠ [] := dedupKeep_ne_nil hkw
    have hres : extractKeywords q = dedupKeep (keywordsOf (queryTokens q)) := by
      unfold extractKeywords
      rw [if_neg]
      intro hcon
      exact hdd hcon.1
    refine ⟨hres ▸ hdd, hres ▸ dedupKeep_nodup _, ?_⟩
    intro w hw
    rw [hres] at hw
    have hmem : w ∈ keywordsOf (queryTokens q) := mem_dedupKeep _ _ hw
    obtain ⟨t, _, ht⟩ := List.mem_filterMap.mp hmem
    exact tokenKeyword_length ht
  · intro hkw htok
    have hres : extractKeywords q = (sortDescBy String.length (queryTokens q)).take 3 := by
      unfold extractKeywords
      rw [if_pos ⟨by rw [hkw]; rfl, htok⟩]
    refine ⟨?_, hres⟩
    rw [hres]
    intro hcon
    rcases List.take_eq_nil_iff.mp hcon with h3 | hnil
    · cases h3
    · exact htok (by
        have := length_sortDescBy String.length (queryTokens q)
        rw [hnil] at this
        exact List.length_eq_zero.mp this.symm)
  · intro htok
    unfold extractKeywords
    rw [if_neg (by rw [htok]; simp)]
    rw [htok]
    rfl

/-- Witness for C5 (amended): the query `"위암 치료"` has surviving
keywords, so the extraction is non-empty, duplicate-free, and every keyword
has at least 2 characters. -/
theorem extractKeywords_amended_witness :
    extractKeywords "위암 치료" ≠ [] ∧ (extractKeywords "위암 치료").Nodup ∧
      ∀ w ∈ extractKeywords "위암 치료", 2 ≤ w.length :=
  (extractKeywords_amended "위암 치료").1 (by decide)

/-! ### Keyword expansion (`supabase_client.py` lines 200-230)

```
expanded = list(keywords)
cancer_base_terms = ["암", "암치료", "암환자", "항암", "암보조"]
for kw in keywords:
    if kw.endswith("암") and len(kw) >= 2 and kw != "암":
        for term in cancer_base_terms:
            if term not in expanded:
                expanded.append(term)
for kw in keywords:
    if len(kw) >= 4:
        for i in range(0, len(kw) - 2):
            sub = kw[i:i+3]
            if sub not in expanded and sub not in SupabaseManager._STOPWORDS:
                expanded.append(sub)
return expanded
```
-/

/-- Append a term unless it is already present (`if x not in expanded:
expanded.append(x)`). -/
def addOnce (acc : List String) (t : String) : List String :=
  if t ∈ acc then acc else acc ++ [t]

/-- `_expand_synonyms`, with the synonym dictionary as a parameter. -/
def expandSynonyms (getSynonyms : String → List String) (keywords : List String) :
    List String :=
  keywords.foldl (fun expanded kw => (getSynonyms kw).foldl addOnce expanded) keywords

/-- The fixed cancer base terms injected for `XX암` keywords. -/
def cancerBaseTerms : List String := ["암", "암치료", "암환자", "항암", "암보조"]

/-- `kw[i:i+3]` on code points. -/
def subword (kw : String) (i : ℕ) : String := String.mk ((kw.toList.drop i).take 3)

/-- The cancer-suffix pass over one keyword. -/
def cancerStep (acc : List String) (kw : String) : List String :=
  if strEndsWith kw "암" = true ∧ 2 ≤ kw.length ∧ kw ≠ "암" then
    cancerBaseTerms.foldl addOnce acc
  else acc

/-- The inner body of the length-3 substring loop. -/
def subStep (kw : String) (acc : List String) (i : ℕ) : List String :=
  if subword kw i ∉ acc ∧ subword kw i ∉ STOPWORDS then acc ++ [subword kw i]
  else acc

/-- The substring pass over one keyword. -/
def compoundStep (acc : List String) (kw : String) : List String :=
  if 4 ≤ kw.length then (List.range (kw.length - 2)).foldl (subStep kw) acc
  else acc

/-- `_expand_compound_keywords`: start from the keywords, run the cancer
pass, then the substring pass. -/
def expandCompounds (keywords : List String) : List String :=
  keywords.foldl compoundStep (keywords.foldl cancerStep keywords)

theorem addOnce_subset (acc : List String) (t : String) : acc ⊆ addOnce acc t := by
  unfold addOnce
  by_cases h : t ∈ acc
  · rw [if_pos h]
    exact List.Subset.refl _
  · rw [if_neg h]
    exact List.subset_append_left _ _

theorem mem_addOnce (acc : List String) (t : String) : t ∈ addOnce acc t := by
  unfold addOnce
  by_cases h : t ∈ acc
  · rw [if_pos h]; exact h
  · rw [if_neg h]; simp

/-- Folds whose step only ever extends the accumulator preserve it. -/
theorem foldl_subset {α β : Type} (f : List α → β → List α)
    (hf : ∀ acc b, acc ⊆ f acc b) :
    ∀ (l : List β) (acc : List α), acc ⊆ List.foldl f acc l := by
  intro l
  induction l with
  | nil => intro acc a ha; exact ha
  | cons b bs ih =>
      intro acc
      exact List.Subset.trans (hf acc b) (ih (f acc b))

theorem addOnce_foldl_mem : ∀ (ts acc : List String) (t : String), t ∈ ts →
    t ∈ ts.foldl addOnce acc := by
  intro ts
  induction ts with
  | nil => intro acc t h; cases h
  | cons x xs ih =>
      intro acc t h
      rcases List.mem_cons.mp h with rfl | h
      · exact foldl_subset addOnce addOnce_subset xs (addOnce acc t) (mem_addOnce acc t)
      · exact ih _ t h

theorem subStep_subset (kw : String) (acc : List String) (i : ℕ) :
    acc ⊆ subStep kw acc i := by
  unfold subStep
  by_cases h : subword kw i ∉ acc ∧ subword kw i ∉ STOPWORDS
  · rw [if_pos h]
    exact List.subset_append_left _ _
  · rw [if_neg h]
    exact List.Subset.refl _

theorem cancerStep_subset (acc : List String) (kw : String) :
    acc ⊆ cancerStep acc kw := by
  unfold cancerStep
  by_cases h : strEndsWith kw "암" = true ∧ 2 ≤ kw.length ∧ kw ≠ "암"
  · rw [if_pos h]
    exact foldl_subset addOnce addOnce_subset _ _
  · rw [if_neg h]
    exact List.Subset.refl _

theorem compoundStep_subset (acc : List String) (kw : String) :
    acc ⊆ compoundStep acc kw := by
  unfold compoundStep
  by_cases h : 4 ≤ kw.length
  · rw [if_pos h]
    exact foldl_subset (subStep kw) (subStep_subset kw) _ _
  · rw [if_neg h]
    exact List.Subset.refl _

/-- After the substring loop over an index list containing `i`, the `i`-th
substring is present (unless it is a stopword). -/
theorem subFold_mem (kw : String) : ∀ (idxs : List ℕ) (acc : List String) (i : ℕ),
    i ∈ idxs → subword kw i ∉ STOPWORDS →
    subword kw i ∈ idxs.foldl (subStep kw) acc := by
  intro idxs
  induction idxs with
  | nil => intro acc i h; cases h
  | cons j js ih =>
      intro acc i h hstop
      rcases List.mem_cons.mp h with rfl | h
      · have hin : subword kw i ∈ subStep kw acc i := by
          unfold subStep
          by_cases hmem : subword kw i ∈ acc
          · rw [if_neg (by intro hc; exact hc.1 hmem)]
            exact hmem
          · rw [if_pos ⟨hmem, hstop⟩]
            simp
        exact foldl_subset (subStep kw) (subStep_subset kw) js _ hin
      · exact ih _ i h hstop

/-- A keyword that passes `endswith("암")` but is not the bare suffix has at
least two characters. -/
theorem two_le_length_of_cancer {kw : String} (hs : strEndsWith kw "암" = true)
    (hne : kw ≠ "암") : 2 ≤ kw.length := by
  cases kw with
  | mk data =>
      match data with
      | [] => exact absurd hs (by decide)
      | [c] =>
          exfalso
          have hc : c = '암' := by
            have h2 : ['암'].isSuffixOf [c] = true := hs
            simp [List.isSuffixOf, List.isPrefixOf] at h2
            exact h2.symm
          exact hne (by rw [hc])
      | c1 :: c2 :: rest =>
          show 2 ≤ (c1 :: c2 :: rest).length
          simp only [List.length_cons]
          omega

/-- C8 counterexample.  The claim states that every length-3 contiguous
substring of a keyword of length ≥ 4 appears in the expansion, but the code
skips substrings that are stopwords: for the 4-character keyword
`"합니다만"`, the first substring `"합니다"` is a stopword and is not in the
output. -/
theorem expandCompounds_claim_counterexample :
    4 ≤ ("합니다만" : String).length ∧ subword "합니다만" 0 = "합니다" ∧
    "합니다" ∉ expandCompounds ["합니다만"] := by decide

/-- C8 (amended).  For every input keyword list: each keyword of length ≥ 4
contributes every contiguous length-3 substring **that is not a stopword**
to the expansion, and each keyword ending in the disease suffix `"암"`
(other than the bare suffix itself) contributes all five cancer base
terms. -/
theorem expandCompounds_amended (keywords : List String) :
    (∀ kw ∈ keywords, 4 ≤ kw.length →
      ∀ i < kw.length - 2, subword kw i ∉ STOPWORDS →
        subword kw i ∈ expandCompounds keywords) ∧
    (∀ kw ∈ keywords, strEndsWith kw "암" = true → kw ≠ "암" →
      ∀ t ∈ cancerBaseTerms, t ∈ expandCompounds keywords) := by
  constructor
  · intro kw hkw h4 i hi hstop
    unfold expandCompounds
    obtain ⟨l1, l2, rfl⟩ := List.append_of_mem hkw
    rw [List.foldl_append, List.foldl_cons]
    have hin : subword kw i ∈
        compoundStep (List.foldl compoundStep
          (List.foldl cancerStep (l1 ++ kw :: l2) (l1 ++ kw :: l2)) l1) kw := by
      unfold compoundStep
      rw [if_pos h4]
      exact subFold_mem kw _ _ i (List.mem_range.mpr hi) hstop
    exact foldl_subset compoundStep compoundStep_subset l2 _ hin
  · intro kw hkw hs hne t ht
    unfold expandCompounds
    have hcancer : t ∈ (keywords.foldl cancerStep keywords) := by
      obtain ⟨l1, l2, hsplit⟩ := List.append_of_mem hkw
      rw [hsplit, List.foldl_append, List.foldl_cons]
      have hin : t ∈ cancerStep (List.foldl cancerStep (l1 ++ kw :: l2) l1) kw := by
        unfold cancerStep
        rw [if_pos ⟨hs, two_le_length_of_cancer hs hne, hne⟩]
        exact addOnce_foldl_mem _ _ t ht
      exact foldl_subset cancerStep cancerStep_subset l2 _ hin
    exact foldl_subset compoundStep compoundStep_subset keywords _ hcancer

/-- Witness for C8 (amended) at the keyword `"위암수술"`: the non-stopword
substring `"암수술"` (index 1) is in the expansion, and since the keyword
ends in `"암"`... the keyword `"위암"` contributes all cancer base terms. -/
theorem expandCompounds_amended_witness :
    subword "위암수술" 1 ∈ expandCompounds ["위암수술"] ∧
    ∀ t ∈ cancerBaseTerms, t ∈ expandCompounds ["위암"] :=
  ⟨(expandCompounds_amended ["위암수술"]).1 "위암수술" (by decide) (by decide) 1
      (by decide) (by decide),
   (expandCompounds_amended ["위암"]).2 "위암" (by decide) (by decide) (by decide)⟩

/-! ### Keyword search scoring (`supabase_client.py` lines 232-279)

```
keywords = self._extract_keywords(query_text)
if not keywords:
    return []
... (store query producing response.data) ...
results = []
for item in response.data:
    content_normalized = item.get('content', '').replace(' ', '').lower()
    matched = sum(1 for kw in keywords
                  if any(term.lower().replace(' ', '') in content_normalized
                         for term in [kw] + get_synonyms(kw)))
    score = round(matched / len(keywords), 2) if keywords else 0.0
    if score >= 0.3:
        item['similarity'] = score
        results.append(item)
results.sort(key=lambda x: x['similarity'], reverse=True)
return results[:k]
```
-/

/-- Substring containment of character lists (Python `in` on strings). -/
def listHasInfix : List Char → List Char → Bool
  | pat, [] => pat.isEmpty
  | pat, c :: cs => pat.isPrefixOf (c :: cs) || listHasInfix pat cs

/-- Python `pat in hay` on strings. -/
def strContains (hay pat : String) : Bool := listHasInfix pat.toList hay.toList

/-- Python `s.replace(' ', '').lower()` (equivalently
`s.lower().replace(' ', '')`): drop spaces, lowercase per character. -/
def pyNorm (s : String) : String :=
  String.mk ((s.toList.filter (fun c => !(c == ' '))).map Char.toLower)

/-- Round-half-even of the fraction `a / b` (`b > 0`) to an integer —
the semantics of Python `round` at integer granularity. -/
def rheInt (a : ℤ) (b : ℕ) : ℤ :=
  if 2 * (a - a.fdiv b * b) < (b : ℤ) then a.fdiv b
  else if (b : ℤ) < 2 * (a - a.fdiv b * b) then a.fdiv b + 1
  else if a.fdiv b % 2 = 0 then a.fdiv b else a.fdiv b + 1

/-- Python `round(x, 2)` on the exact rational value: round-half-even of
`100 * x`, divided by 100. -/
def round2 (x : ℚ) : ℚ := mkRat (rheInt (100 * x.num) x.den) 100

/-- `matched`: how many base keywords (directly or via a synonym) occur in
the normalized content. -/
def kwMatched (getSynonyms : String → List String) (keywords : List String)
    (content : String) : ℕ :=
  keywords.countP (fun kw =>
    ([kw] ++ getSynonyms kw).any (fun term =>
      strContains (pyNorm content) (pyNorm term)))

/-- `SupabaseManager.keyword_search`, with the store response (`response.data`)
as the `rows` input: score each row by keyword-overlap ratio rounded to two
decimals, keep scores ≥ 0.3, sort descending, return the first `k`. -/
def keyword_search (getSynonyms : String → List String) (query_text : String)
    (k : ℕ) (rows : List Doc) : List Doc :=
  let keywords := extractKeywords query_text
  if keywords = [] then []
  else
    let results := rows.filterMap (fun item =>
      let score := round2 (mkRat (kwMatched getSynonyms keywords item.content)
        keywords.length)
      if KEYWORD_SIMILARITY_FLOOR ≤ score then
        some { item with similarity := score }
      else none)
    (sortDescBy Doc.similarity results).take k

/-- Round-half-even never overshoots an integer upper bound of the
fraction. -/
theorem rheInt_le (a : ℤ) (b : ℕ) (n : ℤ) (hb : 0 < b) (h : a ≤ n * (b : ℤ)) :
    rheInt a b ≤ n := by
  unfold rheInt
  have hb' : (0 : ℤ) < (b : ℤ) := by exact_mod_cast hb
  have hid : (b : ℤ) * a.fdiv (b : ℤ) + a.fmod (b : ℤ) = a := Int.fdiv_add_fmod a b
  have h0 : 0 ≤ a.fmod (b : ℤ) := Int.fmod_nonneg' a hb'
  have hltb : a.fmod (b : ℤ) < (b : ℤ) := Int.fmod_lt_of_pos a hb'
  have hr : a - a.fdiv (b : ℤ) * (b : ℤ) = a.fmod (b : ℤ) := by
    rw [Int.mul_comm] at hid
    omega
  have hqn : a.fdiv (b : ℤ) ≤ n := by
    by_contra hq
    push_neg at hq
    have h1 : n + 1 ≤ a.fdiv (b : ℤ) := hq
    have hmul : (b : ℤ) * (n + 1) ≤ (b : ℤ) * a.fdiv (b : ℤ) :=
      mul_le_mul_of_nonneg_left h1 (le_of_lt hb')
    have hexp : (b : ℤ) * (n + 1) = (b : ℤ) * n + (b : ℤ) := by ring
    have hcomm : n * (b : ℤ) = (b : ℤ) * n := mul_comm _ _
    omega
  rw [hr]
  by_cases h1 : 2 * a.fmod (b : ℤ) < (b : ℤ)
  · rw [if_pos h1]
    exact hqn
  · rw [if_neg h1]
    have hq1 : a.fdiv (b : ℤ) + 1 ≤ n := by
      rcases lt_or_eq_of_le hqn with hlt | heq
      · omega
      · exfalso
        have hcomm : n * (b : ℤ) = (b : ℤ) * n := mul_comm _ _
        rw [heq] at hid
        omega
    by_cases h2 : (b : ℤ) < 2 * a.fmod (b : ℤ)
    · rw [if_pos h2]
      exact hq1
    · rw [if_neg h2]
      by_cases h3 : a.fdiv (b : ℤ) % 2 = 0
      · rw [if_pos h3]
        exact hqn
      · rw [if_neg h3]
        exact hq1

/-- `round(x, 2)` of a value ≤ 1 stays ≤ 1. -/
theorem round2_le_one (x : ℚ) (h : x ≤ 1) : round2 x ≤ 1 := by
  unfold round2
  have hden : (0 : ℤ) < (x.den : ℤ) := by exact_mod_cast x.pos
  have hnum : x.num ≤ (x.den : ℤ) := by
    have hx : ((x.num : ℚ) / (x.den : ℚ)) ≤ 1 := by
      rw [Rat.num_div_den]
      exact h
    have h2 : (x.num : ℚ) ≤ (x.den : ℚ) :=
      (div_le_one (by exact_mod_cast x.pos)).mp hx
    exact_mod_cast h2
  have hs : rheInt (100 * x.num) x.den ≤ 100 := by
    apply rheInt_le _ _ _ x.pos
    nlinarith
  rw [Rat.mkRat_eq_div]
  rw [div_le_one (by norm_num)]
  exact_mod_cast hs

/-- C9. Implicit postcondition of `keyword_search` (`supabase_client.py`
lines 259-276): every returned document carries a similarity equal to the
keyword-overlap ratio (matched base keywords over total base keywords)
rounded to 2 decimals, lying in `[0.3, 1]` (sub-floor candidates are
dropped); the list is sorted by that score descending and has at most `k`
elements. -/
theorem keyword_search_postcondition (getSynonyms : String → List String)
    (query_text : String) (k : ℕ) (rows : List Doc) :
    (∀ d ∈ keyword_search getSynonyms query_text k rows,
      d.similarity = round2 (mkRat
          (kwMatched getSynonyms (extractKeywords query_text) d.content)
          (extractKeywords query_text).length) ∧
      KEYWORD_SIMILARITY_FLOOR ≤ d.similarity ∧ d.similarity ≤ 1) ∧
    (keyword_search getSynonyms query_text k rows).Pairwise
      (fun a b => b.similarity ≤ a.similarity) ∧
    (keyword_search getSynonyms query_text k rows).length ≤ k := by
  unfold keyword_search
  dsimp only
  by_cases hkw : extractKeywords query_text = []
  · rw [if_pos hkw]
    refine ⟨?_, ?_, ?_⟩
    · intro d hd
      cases hd
    · exact List.Pairwise.nil
    · simp
  · rw [if_neg hkw]
    have hlen : 0 < (extractKeywords query_text).length :=
      List.length_pos.mpr hkw
    refine ⟨?_, ?_, ?_⟩
    · intro d hd
      have hd1 := List.mem_of_mem_take hd
      have hd2 := mem_sortDescBy.mp hd1
      obtain ⟨item, _, hit⟩ := List.mem_filterMap.mp hd2
      by_cases hfl : KEYWORD_SIMILARITY_FLOOR ≤
          round2 (mkRat (kwMatched getSynonyms (extractKeywords query_text)
            item.content) (extractKeywords query_text).length)
      · rw [if_pos hfl] at hit
        cases hit
        refine ⟨rfl, hfl, ?_⟩
        apply round2_le_one
        rw [Rat.mkRat_eq_div]
        rw [div_le_one (by exact_mod_cast hlen)]
        exact_mod_cast List.countP_le_length _
      · rw [if_neg hfl] at hit
        cases hit
    · exact (sortDescBy_pairwise Doc.similarity _).sublist (List.take_sublist _ _)
    · exact List.length_take_le _ _

/-- Witness for C9: a store row whose content matches the single keyword of
the query `"위암"` scores exactly 1.0 and is returned. -/
theorem keyword_search_postcondition_witness :
    KEYWORD_SIMILARITY_FLOOR ≤
        (Doc.mk (some (Sum.inl 1)) "위암 치료 안내" (1 : ℚ)
          none).similarity ∧
      (Doc.mk (some (Sum.inl 1)) "위암 치료 안내" (1 : ℚ) none).similarity ≤ 1 := by
  have h := (keyword_search_postcondition (fun _ => []) "위암" 5
      [⟨some (Sum.inl 1), "위암 치료 안내", 0, none⟩]).1
      ⟨some (Sum.inl 1), "위암 치료 안내", (1 : ℚ), none⟩ (by decide)
  exact ⟨h.2.1, h.2.2⟩

/-! ### Citation assembly (`api/main.py` lines 169-312)

The source-curation block of `response_generator`: collect citations from
the context documents (path A), supplement YouTube citations from a
category query against the store (path B), then from keyword searches
(path C).  A single `seen_urls` set spans all three paths; `yt_sources` is
capped at `MAX_YT = 5`; `sources = other_sources + yt_sources`. -/

/-- `MAX_YT = 5` (`api/main.py` line 229). -/
def MAX_YT : ℕ := 5

/-- `_is_youtube` (`api/main.py` lines 180-181). -/
def isYoutube (url : String) : Bool :=
  strContains url "youtube.com" || strContains url "youtu.be"

/-- `CATEGORY_EXCLUDE_KEYWORDS` (`api/main.py` lines 193-197), as the
lookup `CATEGORY_EXCLUDE_KEYWORDS.get(final_category, [])`. -/
def CATEGORY_EXCLUDE_KEYWORDS (cat : String) : List String :=
  if cat = "cancer" then
    ["자율신경", "자율신경실조", "교감신경", "부교감신경", "자율신경장애"]
  else if cat = "nerve" then
    ["고주파", "온열치료", "온코써미아", "하이퍼써미아", "항암", "화학요법", "항암치료", "항암제"]
  else []

/-- `_is_excluded_video` (`api/main.py` lines 199-204). -/
def isExcludedVideo (title : String) (excludeKws : List String) : Bool :=
  if excludeKws.isEmpty then false
  else excludeKws.any (fun kw => strContains (pyNorm title) (pyNorm kw))

/-- `any(kw.lower().replace(' ', '') in title_norm for kw in search_keywords)`. -/
def titleMatches (sk : List String) (title : String) : Bool :=
  sk.any (fun kw => strContains (pyNorm title) (pyNorm kw))

/-- `item['_score']`: number of search keywords found in the normalized
title (`api/main.py` lines 262-266). -/
def ytScore (sk : List String) (m : Meta) : ℕ :=
  sk.countP (fun kw => strContains (pyNorm m.title) (pyNorm kw))

/-- The mutable state of the citation block: `seen_urls` (a set, modelled
as a duplicate-checked list), `yt_sources`, `other_sources`. -/
structure SState where
  seen : List String
  ytSources : List Meta
  otherSources : List Meta

/-- `seen_urls.add(u)`. -/
def addSeen (seen : List String) (u : String) : List String :=
  if u ∈ seen then seen else seen ++ [u]

/-- Path A (`api/main.py` lines 206-227): the loop body over one context
document. -/
def contextStep (sk excludeKws : List String) (st : SState) (d : Doc) : SState :=
  match d.metadata with
  | none => st
  | some m =>
      if m.source ∈ st.seen then st
      else if isYoutube m.source then
        if m.title ≠ "" ∧ sk ≠ [] then
          if isExcludedVideo m.title excludeKws then st
          else if titleMatches sk m.title then
            { st with seen := addSeen st.seen m.source,
                      ytSources := st.ytSources ++ [m] }
          else st
        else st
      else if m.source ≠ "" then
        { st with seen := addSeen st.seen m.source,
                  otherSources := st.otherSources ++ [m] }
      else st

/-- Path B candidate collection (`api/main.py` lines 244-256): build
`cat_yt` from the category query rows, guarded by `seen_urls` and the local
`cat_seen` set. -/
def catCollect (seen excludeKws : List String) :
    List (Option Meta) → List String → List Meta → List Meta
  | [], _, acc => acc
  | none :: rs, cseen, acc => catCollect seen excludeKws rs cseen acc
  | some m :: rs, cseen, acc =>
      if isYoutube m.source = true ∧ m.source ∉ seen ∧ m.source ∉ cseen ∧
          m.title ≠ "" then
        if isExcludedVideo m.title excludeKws then
          catCollect seen excludeKws rs cseen acc
        else catCollect seen excludeKws rs (cseen ++ [m.source]) (acc ++ [m])
      else catCollect seen excludeKws rs cseen acc

/-- Path B (`api/main.py` lines 234-277): category-based YouTube
supplementation.  `catResp = none` models the `except` arm (failure skips
the whole step). -/
def pathB (sk excludeKws : List String) (st : SState)
    (catResp : Option (List (Option Meta))) : SState :=
  if st.ytSources.length < MAX_YT then
    match catResp with
    | none => st
    | some rows =>
        let catYt := catCollect st.seen excludeKws rows [] []
        let catYt2 :=
          if sk ≠ [] then
            sortDescBy (fun m => ytScore sk m)
              (catYt.filter (fun m => decide (0 < ytScore sk m)))
          else catYt
        let chosen := catYt2.take (MAX_YT - st.ytSources.length)
        chosen.foldl (fun s m =>
          { s with seen := addSeen s.seen m.source,
                   ytSources := s.ytSources ++ [m] }) st
  else st

/-- Path C (`api/main.py` lines 291-308): the loop body over one
keyword-search result document (the `break` at the cap re-checked per
element). -/
def kwDocStep (sk excludeKws : List String) (st : SState) (d : Doc) : SState :=
  if MAX_YT ≤ st.ytSources.length then st
  else
    match d.metadata with
    | none => st
    | some m =>
        if isYoutube m.source = true ∧ m.source ∉ st.seen then
          if m.title ≠ "" then
            if isExcludedVideo m.title excludeKws then st
            else if titleMatches sk m.title then
              { st with seen := addSeen st.seen m.source,
                        ytSources := st.ytSources ++ [m] }
            else st
          else st
        else st

/-- Path C over the two keyword-search tables (`api/main.py` lines
281-310): each table skipped once the cap is reached. -/
def pathC (sk excludeKws : List String) (st : SState) (kw1 kw2 : List Doc) :
    SState :=
  if st.ytSources.length < MAX_YT ∧ sk ≠ [] then
    let st1 :=
      if st.ytSources.length < MAX_YT then kw1.foldl (kwDocStep sk excludeKws) st
      else st
    if st1.ytSources.length < MAX_YT then kw2.foldl (kwDocStep sk excludeKws) st1
    else st1
  else st

/-- The whole citation-assembly block: expand the query keywords, run the
three paths, and emit `other_sources + yt_sources`. -/
def assembleSources (finalCategory : String) (getSynonyms : String → List String)
    (query : String) (contextDocs : List Doc)
    (catResp : Option (List (Option Meta))) (kw1 kw2 : List Doc) : List Meta :=
  let searchKeywords :=
    expandCompounds (expandSynonyms getSynonyms (extractKeywords query))
  let excludeKeywords := CATEGORY_EXCLUDE_KEYWORDS finalCategory
  let stA := contextDocs.foldl (contextStep searchKeywords excludeKeywords)
    ⟨[], [], []⟩
  let stB := pathB searchKeywords excludeKeywords stA catResp
  let stC := pathC searchKeywords excludeKeywords stB kw1 kw2
  stC.otherSources ++ stC.ytSources

/-- The invariant tying the three citation paths together: source URLs are
pairwise distinct across both output lists, every collected URL is in
`seen_urls`, non-video sources are never YouTube links, and video sources
are YouTube links that passed the category exclusion filter. -/
def SInv (excludeKws : List String) (st : SState) : Prop :=
  (st.otherSources.map Meta.source ++ st.ytSources.map Meta.source).Nodup ∧
  (∀ u ∈ st.otherSources.map Meta.source ++ st.ytSources.map Meta.source,
    u ∈ st.seen) ∧
  (∀ m ∈ st.otherSources, isYoutube m.source = false) ∧
  (∀ m ∈ st.ytSources, isYoutube m.source = true ∧
    isExcludedVideo m.title excludeKws = false)

theorem subset_addSeen (seen : List String) (u : String) : seen ⊆ addSeen seen u := by
  unfold addSeen
  by_cases h : u ∈ seen
  · rw [if_pos h]
    exact List.Subset.refl _
  · rw [if_neg h]
    exact List.subset_append_left _ _

theorem mem_addSeen (seen : List String) (u : String) : u ∈ addSeen seen u := by
  unfold addSeen
  by_cases h : u ∈ seen
  · rw [if_pos h]
    exact h
  · rw [if_neg h]
    simp

theorem addSeen_of_not_mem {seen : List String} {u : String} (h : u ∉ seen) :
    addSeen seen u = seen ++ [u] := by
  unfold addSeen
  rw [if_neg h]

/-- Appending a fresh (unseen) YouTube video that passed the exclusion
filter preserves the invariant. -/
theorem SInv_addYt {ex : List String} {st : SState} {m : Meta}
    (hinv : SInv ex st) (hnew : m.source ∉ st.seen)
    (hyt : isYoutube m.source = true)
    (hex : isExcludedVideo m.title ex = false) :
    SInv ex { st with seen := addSeen st.seen m.source,
                      ytSources := st.ytSources ++ [m] } := by
  obtain ⟨hnd, hseen, hoth, hytl⟩ := hinv
  refine ⟨?_, ?_, hoth, ?_⟩
  · simp only [List.map_append, List.map_cons, List.map_nil]
    rw [← List.append_assoc]
    rw [List.nodup_append]
    refine ⟨hnd, List.nodup_singleton _, ?_⟩
    intro a ha hb
    rcases List.mem_singleton.mp hb with rfl
    exact hnew (hseen _ ha)
  · intro u hu
    simp only [List.map_append, List.map_cons, List.map_nil] at hu
    rw [← List.append_assoc] at hu
    rcases List.mem_append.mp hu with hu | hu
    · exact subset_addSeen _ _ (hseen _ hu)
    · rcases List.mem_singleton.mp hu with rfl
      exact mem_addSeen _ _
  · intro m' hm'
    rcases List.mem_append.mp hm' with hm' | hm'
    · exact hytl _ hm'
    · rcases List.mem_singleton.mp hm' with rfl
      exact ⟨hyt, hex⟩

/-- Appending a fresh non-video source preserves the invariant. -/
theorem SInv_addOther {ex : List String} {st : SState} {m : Meta}
    (hinv : SInv ex st) (hnew : m.source ∉ st.seen)
    (hyt : isYoutube m.source = false) :
    SInv ex { st with seen := addSeen st.seen m.source,
                      otherSources := st.otherSources ++ [m] } := by
  obtain ⟨hnd, hseen, hoth, hytl⟩ := hinv
  refine ⟨?_, ?_, ?_, hytl⟩
  · simp only [List.map_append, List.map_cons, List.map_nil, List.append_assoc,
      List.singleton_append]
    rw [List.nodup_middle]
    refine List.nodup_cons.mpr ⟨?_, hnd⟩
    intro ha
    exact hnew (hseen _ ha)
  · intro u hu
    simp only [List.map_append, List.map_cons, List.map_nil] at hu
    rcases List.mem_append.mp hu with h1 | h2
    · rcases List.mem_append.mp h1 with h1a | h1b
      · exact subset_addSeen _ _ (hseen _ (List.mem_append_left _ h1a))
      · rcases List.mem_singleton.mp h1b with rfl
        exact mem_addSeen _ _
    · exact subset_addSeen _ _ (hseen _ (List.mem_append_right _ h2))
  · intro m' hm'
    rcases List.mem_append.mp hm' with hm' | hm'
    · exact hoth _ hm'
    · rcases List.mem_singleton.mp hm' with rfl
      exact hyt

theorem contextStep_inv {sk ex : List String} {st : SState} (d : Doc)
    (hinv : SInv ex st) : SInv ex (contextStep sk ex st d) := by
  unfold contextStep
  cases d.metadata with
  | none => exact hinv
  | some m =>
      dsimp only
      by_cases h1 : m.source ∈ st.seen
      · rw [if_pos h1]
        exact hinv
      · rw [if_neg h1]
        by_cases h2 : isYoutube m.source = true
        · rw [if_pos h2]
          by_cases h3 : m.title ≠ "" ∧ sk ≠ []
          · rw [if_pos h3]
            by_cases h4 : isExcludedVideo m.title ex = true
            · rw [if_pos h4]
              exact hinv
            · rw [if_neg h4]
              by_cases h5 : titleMatches sk m.title = true
              · rw [if_pos h5]
                exact SInv_addYt hinv h1 h2 (Bool.not_eq_true _ ▸ h4)
              · rw [if_neg h5]
                exact hinv
          · rw [if_neg h3]
            exact hinv
        · rw [if_neg h2]
          by_cases h6 : m.source ≠ ""
          · rw [if_pos h6]
            exact SInv_addOther hinv h1 (Bool.not_eq_true _ ▸ h2)
          · rw [if_neg h6]
            exact hinv

theorem contextStep_len {sk ex : List String} {st : SState} (d : Doc) :
    (contextStep sk ex st d).ytSources.length ≤ st.ytSources.length + 1 := by
  unfold contextStep
  cases d.metadata with
  | none => dsimp only; omega
  | some m =>
      dsimp only
      by_cases h1 : m.source ∈ st.seen
      · rw [if_pos h1]; omega
      · rw [if_neg h1]
        by_cases h2 : isYoutube m.source = true
        · rw [if_pos h2]
          by_cases h3 : m.title ≠ "" ∧ sk ≠ []
          · rw [if_pos h3]
            by_cases h4 : isExcludedVideo m.title ex = true
            · rw [if_pos h4]; omega
            · rw [if_neg h4]
              by_cases h5 : titleMatches sk m.title = true
              · rw [if_pos h5]
                simp
              · rw [if_neg h5]; omega
          · rw [if_neg h3]; omega
        · rw [if_neg h2]
          by_cases h6 : m.source ≠ ""
          · rw [if_pos h6]
            simp
          · rw [if_neg h6]; omega

theorem contextFold_inv {sk ex : List String} :
    ∀ (docs : List Doc) (st : SState), SInv ex st →
      SInv ex (docs.foldl (contextStep sk ex) st) := by
  intro docs
  induction docs with
  | nil => exact fun st h => h
  | cons d ds ih => exact fun st h => ih _ (contextStep_inv d h)

theorem contextFold_len {sk ex : List String} :
    ∀ (docs : List Doc) (st : SState),
      (docs.foldl (contextStep sk ex) st).ytSources.length ≤
        st.ytSources.length + docs.length := by
  intro docs
  induction docs with
  | nil => intro st; simp
  | cons d ds ih =>
      intro st
      calc (List.foldl (contextStep sk ex) (contextStep sk ex st d) ds).ytSources.length
          ≤ (contextStep sk ex st d).ytSources.length + ds.length := ih _
        _ ≤ st.ytSources.length + 1 + ds.length :=
            Nat.add_le_add_right (contextStep_len d) _
        _ = st.ytSources.length + (d :: ds).length := by simp; omega

theorem kwDocStep_inv {sk ex : List String} {st : SState} (d : Doc)
    (hinv : SInv ex st) : SInv ex (kwDocStep sk ex st d) := by
  unfold kwDocStep
  by_cases h0 : MAX_YT ≤ st.ytSources.length
  · rw [if_pos h0]
    exact hinv
  · rw [if_neg h0]
    cases d.metadata with
    | none => exact hinv
    | some m =>
        dsimp only
        by_cases h1 : isYoutube m.source = true ∧ m.source ∉ st.seen
        · rw [if_pos h1]
          by_cases h2 : m.title ≠ ""
          · rw [if_pos h2]
            by_cases h3 : isExcludedVideo m.title ex = true
            · rw [if_pos h3]
              exact hinv
            · rw [if_neg h3]
              by_cases h4 : titleMatches sk m.title = true
              · rw [if_pos h4]
                exact SInv_addYt hinv h1.2 h1.1 (Bool.not_eq_true _ ▸ h3)
              · rw [if_neg h4]
                exact hinv
          · rw [if_neg h2]
            exact hinv
        · rw [if_neg h1]
          exact hinv

theorem kwDocStep_len {sk ex : List String} {st : SState} (d : Doc)
    (hlen : st.ytSources.length ≤ MAX_YT) :
    (kwDocStep sk ex st d).ytSources.length ≤ MAX_YT := by
  unfold kwDocStep
  by_cases h0 : MAX_YT ≤ st.ytSources.length
  · rw [if_pos h0]
    exact hlen
  · rw [if_neg h0]
    push_neg at h0
    cases d.metadata with
    | none => exact hlen
    | some m =>
        dsimp only
        by_cases h1 : isYoutube m.source = true ∧ m.source ∉ st.seen
        · rw [if_pos h1]
          by_cases h2 : m.title ≠ ""
          · rw [if_pos h2]
            by_cases h3 : isExcludedVideo m.title ex = true
            · rw [if_pos h3]
              exact hlen
            · rw [if_neg h3]
              by_cases h4 : titleMatches sk m.title = true
              · rw [if_pos h4]
                simp only [List.length_append, List.length_cons, List.length_nil]
                omega
              · rw [if_neg h4]
                exact hlen
          · rw [if_neg h2]
            exact hlen
        · rw [if_neg h1]
          exact hlen

theorem kwFold_inv {sk ex : List String} :
    ∀ (docs : List Doc) (st : SState), SInv ex st →
      SInv ex (docs.foldl (kwDocStep sk ex) st) ∧
        (st.ytSources.length ≤ MAX_YT →
          (docs.foldl (kwDocStep sk ex) st).ytSources.length ≤ MAX_YT) := by
  intro docs
  induction docs with
  | nil => exact fun st h => ⟨h, fun hl => hl⟩
  | cons d ds ih =>
      intro st h
      obtain ⟨ha, hb⟩ := ih _ (kwDocStep_inv d h)
      exact ⟨ha, fun hl => hb (kwDocStep_len d hl)⟩

/-- Properties of the `cat_yt` candidates: distinct sources, all YouTube,
none excluded, none already in `seen_urls`. -/
theorem catCollect_spec (seen excludeKws : List String) :
    ∀ (rows : List (Option Meta)) (cseen : List String) (acc : List Meta),
      (acc.map Meta.source).Nodup →
      (∀ u ∈ acc.map Meta.source, u ∈ cseen) →
      (∀ m ∈ acc, isYoutube m.source = true ∧
        isExcludedVideo m.title excludeKws = false ∧ m.source ∉ seen) →
      ((catCollect seen excludeKws rows cseen acc).map Meta.source).Nodup ∧
      (∀ m ∈ catCollect seen excludeKws rows cseen acc,
        isYoutube m.source = true ∧
        isExcludedVideo m.title excludeKws = false ∧ m.source ∉ seen) := by
  intro rows
  induction rows with
  | nil => exact fun cseen acc h1 _ h3 => ⟨h1, h3⟩
  | cons r rs ih =>
      intro cseen acc h1 h2 h3
      cases r with
      | none =>
          rw [catCollect]
          exact ih cseen acc h1 h2 h3
      | some m =>
          rw [catCollect]
          by_cases hc : isYoutube m.source = true ∧ m.source ∉ seen ∧
              m.source ∉ cseen ∧ m.title ≠ ""
          · rw [if_pos hc]
            by_cases hex : isExcludedVideo m.title excludeKws = true
            · rw [if_pos hex]
              exact ih cseen acc h1 h2 h3
            · rw [if_neg hex]
              apply ih (cseen ++ [m.source]) (acc ++ [m])
              · simp only [List.map_append, List.map_cons, List.map_nil]
                rw [List.nodup_append]
                refine ⟨h1, List.nodup_singleton _, ?_⟩
                intro a ha hb
                rcases List.mem_singleton.mp hb with rfl
                exact hc.2.2.1 (h2 _ ha)
              · intro u hu
                simp only [List.map_append, List.map_cons, List.map_nil] at hu
                rcases List.mem_append.mp hu with hu | hu
                · exact List.mem_append_left _ (h2 _ hu)
                · rcases List.mem_singleton.mp hu with rfl
                  simp
              · intro m' hm'
                rcases List.mem_append.mp hm' with hm' | hm'
                · exact h3 _ hm'
                · rcases List.mem_singleton.mp hm' with rfl
                  exact ⟨hc.1, Bool.not_eq_true _ ▸ hex, hc.2.1⟩
          · rw [if_neg hc]
            exact ih cseen acc h1 h2 h3

/-- Appending a block of fresh, distinct, filtered videos (the `cat_yt[:need]`
loop of path B) preserves the invariant and grows `yt_sources` by exactly
the block length. -/
theorem chosenFold_inv {ex : List String} :
    ∀ (chosen : List Meta) (st : SState), SInv ex st →
      (chosen.map Meta.source).Nodup →
      (∀ u ∈ chosen.map Meta.source, u ∉ st.seen) →
      (∀ m ∈ chosen, isYoutube m.source = true ∧
        isExcludedVideo m.title ex = false) →
      SInv ex (chosen.foldl (fun s m =>
        { s with seen := addSeen s.seen m.source,
                 ytSources := s.ytSources ++ [m] }) st) ∧
      (chosen.foldl (fun s m =>
        { s with seen := addSeen s.seen m.source,
                 ytSources := s.ytSources ++ [m] }) st).ytSources.length =
        st.ytSources.length + chosen.length := by
  intro chosen
  induction chosen with
  | nil => exact fun st h _ _ _ => ⟨h, by simp⟩
  | cons m ms ih =>
      intro st hinv hnd hfresh hprops
      have hmfresh : m.source ∉ st.seen := hfresh _ (by simp)
      have hm := hprops m (List.mem_cons_self _ _)
      have hstep := SInv_addYt hinv hmfresh hm.1 hm.2
      have hseen1 : addSeen st.seen m.source = st.seen ++ [m.source] :=
        addSeen_of_not_mem hmfresh
      have hnd1 : (ms.map Meta.source).Nodup :=
        (List.nodup_cons.mp (by simpa using hnd)).2
      have hfresh1 : ∀ u ∈ ms.map Meta.source,
          u ∉ addSeen st.seen m.source := by
        intro u hu
        rw [hseen1]
        intro hmem
        rcases List.mem_append.mp hmem with hmem | hmem
        · exact hfresh u (List.mem_cons_of_mem _ hu) hmem
        · rcases List.mem_singleton.mp hmem with rfl
          exact (List.nodup_cons.mp (by simpa using hnd)).1 hu
      obtain ⟨hr1, hr2⟩ := ih _ hstep hnd1 hfresh1
        (fun m' hm' => hprops m' (List.mem_cons_of_mem _ hm'))
      refine ⟨hr1, ?_⟩
      rw [List.foldl_cons] at *
      rw [hr2]
      simp only [List.length_append, List.length_cons, List.length_nil]
      omega

/-- Path B preserves the invariant; and it never pushes `yt_sources` past
the cap when it was within the cap before. -/
theorem pathB_inv {sk ex : List String} {st : SState}
    (catResp : Option (List (Option Meta))) (hinv : SInv ex st) :
    SInv ex (pathB sk ex st catResp) ∧
      (st.ytSources.length ≤ MAX_YT →
        (pathB sk ex st catResp).ytSources.length ≤ MAX_YT) := by
  unfold pathB
  by_cases hg : st.ytSources.length < MAX_YT
  · rw [if_pos hg]
    cases catResp with
    | none => exact ⟨hinv, fun h => h⟩
    | some rows =>
        dsimp only
        obtain ⟨hcnd, hcprops⟩ := catCollect_spec st.seen ex rows [] []
          (by simp) (by simp) (by simp)
        set catYt := catCollect st.seen ex rows [] [] with hcY
        set catYt2 :=
          (if sk ≠ [] then
            sortDescBy (fun m => ytScore sk m)
              (catYt.filter (fun m => decide (0 < ytScore sk m)))
          else catYt) with hcY2
        set chosen := catYt2.take (MAX_YT - st.ytSources.length) with hch
        have hsub2 : ∀ m ∈ catYt2, m ∈ catYt := by
          intro m hm
          rw [hcY2] at hm
          by_cases hsk : sk ≠ []
          · rw [if_pos hsk] at hm
            exact List.mem_of_mem_filter (mem_sortDescBy.mp hm)
          · rw [if_neg hsk] at hm
            exact hm
        have hnd2 : (catYt2.map Meta.source).Nodup := by
          rw [hcY2]
          by_cases hsk : sk ≠ []
          · rw [if_pos hsk]
            have hperm :=
              (sortDescBy_perm (fun m => ytScore sk m)
                (catYt.filter (fun m => decide (0 < ytScore sk m)))).map Meta.source
            exact hperm.nodup_iff.mpr
              (hcnd.sublist ((List.filter_sublist _).map _))
          · rw [if_neg hsk]
            exact hcnd
        have hndch : (chosen.map Meta.source).Nodup := by
          rw [hch, List.map_take]
          exact hnd2.sublist (List.take_sublist _ _)
        have hfrch : ∀ u ∈ chosen.map Meta.source, u ∉ st.seen := by
          intro u hu
          obtain ⟨m, hm, rfl⟩ := List.mem_map.mp hu
          exact (hcprops m (hsub2 m (List.mem_of_mem_take hm))).2.2
        have hprch : ∀ m ∈ chosen, isYoutube m.source = true ∧
            isExcludedVideo m.title ex = false := by
          intro m hm
          have h := hcprops m (hsub2 m (List.mem_of_mem_take hm))
          exact ⟨h.1, h.2.1⟩
        obtain ⟨hfin, hlenf⟩ := chosenFold_inv chosen st hinv hndch hfrch hprch
        refine ⟨hfin, fun _ => ?_⟩
        rw [hlenf]
        have hchl : chosen.length ≤ MAX_YT - st.ytSources.length := by
          rw [hch]
          exact List.length_take_le _ _
        omega
  · rw [if_neg hg]
    exact ⟨hinv, fun h => h⟩

/-- Path C preserves the invariant and the cap. -/
theorem pathC_inv {sk ex : List String} {st : SState} (kw1 kw2 : List Doc)
    (hinv : SInv ex st) :
    SInv ex (pathC sk ex st kw1 kw2) ∧
      (st.ytSources.length ≤ MAX_YT →
        (pathC sk ex st kw1 kw2).ytSources.length ≤ MAX_YT) := by
  unfold pathC
  by_cases hg : st.ytSources.length < MAX_YT ∧ sk ≠ []
  · rw [if_pos hg]
    dsimp only
    by_cases h1 : st.ytSources.length < MAX_YT
    · rw [if_pos h1]
      obtain ⟨ha, hla⟩ := kwFold_inv kw1 st hinv
      by_cases h2 : (kw1.foldl (kwDocStep sk ex) st).ytSources.length < MAX_YT
      · rw [if_pos h2]
        obtain ⟨hb, hlb⟩ := kwFold_inv kw2 _ ha
        exact ⟨hb, fun hl => hlb (hla hl)⟩
      · rw [if_neg h2]
        exact ⟨ha, hla⟩
    · exact absurd hg.1 h1
  · rw [if_neg hg]
    exact ⟨hinv, fun h => h⟩

/-- The assembled citation list decomposes into an invariant-satisfying
state: `other_sources + yt_sources` with all the `SInv` properties, and at
most `MAX_YT` videos whenever at most `MAX_YT` context documents came
in. -/
theorem assembleSources_spec (finalCategory : String)
    (getSynonyms : String → List String) (query : String)
    (contextDocs : List Doc) (catResp : Option (List (Option Meta)))
    (kw1 kw2 : List Doc) :
    ∃ st : SState,
      SInv (CATEGORY_EXCLUDE_KEYWORDS finalCategory) st ∧
      assembleSources finalCategory getSynonyms query contextDocs catResp kw1 kw2 =
        st.otherSources ++ st.ytSources ∧
      (contextDocs.length ≤ MAX_YT → st.ytSources.length ≤ MAX_YT) := by
  unfold assembleSources
  set sk := expandCompounds (expandSynonyms getSynonyms (extractKeywords query))
  set ex := CATEGORY_EXCLUDE_KEYWORDS finalCategory
  have hinv0 : SInv ex ⟨[], [], []⟩ := by
    refine ⟨by simp, by simp, by simp, by simp⟩
  have hinvA : SInv ex (contextDocs.foldl (contextStep sk ex) ⟨[], [], []⟩) :=
    contextFold_inv contextDocs _ hinv0
  obtain ⟨hinvB, hlenB⟩ := @pathB_inv sk ex _ catResp hinvA
  obtain ⟨hinvC, hlenC⟩ := @pathC_inv sk ex _ kw1 kw2 hinvB
  refine ⟨_, hinvC, rfl, fun hctx => ?_⟩
  apply hlenC
  apply hlenB
  have hA := @contextFold_len sk ex contextDocs ⟨[], [], []⟩
  simp only [List.length_nil] at hA
  omega

/-- C6. Category cross-contamination filter (`api/main.py` lines 193-312):
in a citation assembly run with resolved category `"cancer"`, no YouTube
citation in the final source list — whether from the context documents,
the category-based supplementation, or the keyword-search supplementation —
has a title containing any of the category's exclusion terms under
case-insensitive, whitespace-insensitive substring matching. -/
theorem citation_exclusion_invariant (getSynonyms : String → List String)
    (query : String) (contextDocs : List Doc)
    (catResp : Option (List (Option Meta))) (kw1 kw2 : List Doc) :
    ∀ m ∈ assembleSources "cancer" getSynonyms query contextDocs catResp kw1 kw2,
      isYoutube m.source = true →
      ∀ ex ∈ CATEGORY_EXCLUDE_KEYWORDS "cancer",
        strContains (pyNorm m.title) (pyNorm ex) = false := by
  intro m hm hyt ex hex
  obtain ⟨st, hinv, heq, _⟩ := assembleSources_spec "cancer" getSynonyms query
    contextDocs catResp kw1 kw2
  rw [heq] at hm
  obtain ⟨hnd, hseen, hoth, hytl⟩ := hinv
  rcases List.mem_append.mp hm with hmo | hmy
  · rw [hoth m hmo] at hyt
    cases hyt
  · have hexc := (hytl m hmy).2
    unfold isExcludedVideo at hexc
    rw [if_neg (by decide :
      ¬ ((CATEGORY_EXCLUDE_KEYWORDS "cancer").isEmpty = true))] at hexc
    have hall := List.any_eq_false.mp hexc ex hex
    exact Bool.not_eq_true _ ▸ hall

/-- A context document carrying a cancer-related YouTube video, to exercise
the citation paths concretely. -/
def ytDoc : Doc :=
  ⟨some (Sum.inl 1), "c", 1,
   some ⟨"https://youtube.com/watch?v=1", "암치료 영상"⟩⟩

/-- Witness for C6: the video surfaced for the query `"암치료"` has a title
free of the first cancer-category exclusion term. -/
theorem citation_exclusion_invariant_witness :
    strContains (pyNorm (Meta.mk "https://youtube.com/watch?v=1" "암치료 영상").title)
      (pyNorm "자율신경") = false :=
  citation_exclusion_invariant (fun _ => []) "암치료" [ytDoc] none [] []
    ⟨"https://youtube.com/watch?v=1", "암치료 영상"⟩ (by decide) (by decide)
    "자율신경" (by decide)

/-- C10. Implicit invariant of the final citation list (`api/main.py` lines
183-312): given at most `MAX_CONTEXT_DOCS` context documents (the cap
`retrieve` guarantees), no two emitted sources share a URL — one `seen_urls`
set spans the context, category and keyword paths — and at most `MAX_YT = 5`
YouTube entries appear. -/
theorem citation_list_invariant (finalCategory : String)
    (getSynonyms : String → List String) (query : String)
    (contextDocs : List Doc) (catResp : Option (List (Option Meta)))
    (kw1 kw2 : List Doc) (hctx : contextDocs.length ≤ MAX_CONTEXT_DOCS) :
    ((assembleSources finalCategory getSynonyms query contextDocs catResp
      kw1 kw2).map Meta.source).Nodup ∧
    ((assembleSources finalCategory getSynonyms query contextDocs catResp
      kw1 kw2).filter (fun m => isYoutube m.source)).length ≤ MAX_YT := by
  obtain ⟨st, hinv, heq, hlen⟩ := assembleSources_spec finalCategory getSynonyms
    query contextDocs catResp kw1 kw2
  obtain ⟨hnd, hseen, hoth, hytl⟩ := hinv
  rw [heq]
  constructor
  · rw [List.map_append]
    exact hnd
  · rw [List.filter_append]
    have h1 : st.otherSources.filter (fun m => isYoutube m.source) = [] := by
      rw [List.filter_eq_nil_iff]
      intro m hm
      simp [hoth m hm]
    have h2 : st.ytSources.filter (fun m => isYoutube m.source) = st.ytSources := by
      rw [List.filter_eq_self]
      intro m hm
      simp [(hytl m hm).1]
    rw [h1, h2]
    simp only [List.nil_append]
    exact hlen hctx

/-- Witness for C10 at concrete inputs: one context video plus a duplicate
of the same URL — the emitted list has distinct URLs and at most 5
videos. -/
theorem citation_list_invariant_witness :
    ((assembleSources "cancer" (fun _ => []) "암치료" [ytDoc, ytDoc] none
      [] []).map Meta.source).Nodup ∧
    ((assembleSources "cancer" (fun _ => []) "암치료" [ytDoc, ytDoc] none
      [] []).filter (fun m => isYoutube m.source)).length ≤ MAX_YT :=
  citation_list_invariant "cancer" (fun _ => []) "암치료" [ytDoc, ytDoc] none
    [] [] (by decide)

end RagSpec
